import Mathlib

/-!
Verification of the Paillier cryptosystem library (single-party and
threshold variant) against its natural-language specification.

The Go sources are shallowly embedded: big integers become `Nat`/`Int`
(Go's `big.Int.Div`/`Mod` are Euclidean division, which is `Int`'s `/`
and `%` here), fallible operations (`big.Int.ModInverse` returning nil,
out-of-range slice indexing, error returns) become `Option`/`Except`.
Modular exponentiation `big.Int.Exp` is embedded as a fuel-based binary
exponentiation `powMod` so that all definitions are executable by the
kernel, together with a proof that it computes `b ^ e % m`.
-/

/-- Binary modular exponentiation, fuel-based so that the kernel can
evaluate it even for very large exponents.  Mirrors `big.Int.Exp(b, e, m)`
for nonnegative exponents; `m = 0` plays the role of a nil modulus
(`x % 0 = x`). -/
def powModAux : ℕ → ℕ → ℕ → ℕ → ℕ
  | 0, _, _, m => 1 % m
  | fuel + 1, b, e, m =>
    if e = 0 then 1 % m
    else
      let r := powModAux fuel (b * b % m) (e / 2) m
      if e % 2 = 1 then b * r % m else r

/-- `powMod b e m = b ^ e % m`, computed with `O(log e)` multiplications. -/
def powMod (b e m : ℕ) : ℕ := powModAux (e + 1) b e m

theorem powModAux_correct : ∀ (fuel e b m : ℕ), e < fuel →
    powModAux fuel b e m = b ^ e % m := by
  intro fuel
  induction fuel with
  | zero => intro e b m h; omega
  | succ fuel ih =>
    intro e b m h
    rw [powModAux]
    by_cases he : e = 0
    · simp [he]
    · have he2 : e / 2 < fuel := by omega
      simp only [if_neg he]
      rw [ih (e / 2) (b * b % m) m he2]
      have hsq : (b * b % m) ^ (e / 2) % m = (b * b) ^ (e / 2) % m := by
        rw [← Nat.pow_mod]
      have hpow : (b * b) ^ (e / 2) = b ^ (2 * (e / 2)) := by
        rw [← pow_two, ← pow_mul]
      by_cases hodd : e % 2 = 1
      · simp only [if_pos hodd]
        rw [hsq, hpow]
        have h3 : b * (b ^ (2 * (e / 2)) % m) % m = b * b ^ (2 * (e / 2)) % m := by
          conv_lhs => rw [Nat.mul_mod]
          conv_rhs => rw [Nat.mul_mod]
          rw [Nat.mod_mod_of_dvd _ (dvd_refl m)]
        rw [h3]
        congr 1
        rw [← pow_succ']
        congr 1
        omega
      · simp only [if_neg hodd]
        rw [hsq, hpow]
        congr 2
        omega

theorem powMod_eq (b e m : ℕ) : powMod b e m = b ^ e % m :=
  powModAux_correct (e + 1) e b m (Nat.lt_succ_self e)

/-- Extended Euclidean algorithm, fuel-based.  `xgcdAuxFuel fuel a b`
returns `(g, x, y)` with `g = gcd a b` and `a*x + b*y = g`, provided
`b ≤ fuel`. -/
def xgcdAuxFuel : ℕ → ℕ → ℕ → ℤ × ℤ × ℤ
  | 0, a, _ => ((a : ℤ), 1, 0)
  | fuel + 1, a, b =>
    if b = 0 then ((a : ℤ), 1, 0)
    else
      let t := xgcdAuxFuel fuel b (a % b)
      (t.1, t.2.2, t.2.1 - ((a / b : ℕ) : ℤ) * t.2.2)

theorem xgcdAuxFuel_correct : ∀ (fuel a b : ℕ), b ≤ fuel →
    (xgcdAuxFuel fuel a b).1 = (Nat.gcd a b : ℤ) ∧
    (a : ℤ) * (xgcdAuxFuel fuel a b).2.1 + (b : ℤ) * (xgcdAuxFuel fuel a b).2.2 =
      (xgcdAuxFuel fuel a b).1 := by
  intro fuel
  induction fuel with
  | zero =>
    intro a b h
    have hb : b = 0 := Nat.le_zero.mp h
    subst hb
    simp [xgcdAuxFuel]
  | succ fuel ih =>
    intro a b h
    by_cases hb : b = 0
    · subst hb; simp [xgcdAuxFuel]
    · have hrec : a % b ≤ fuel := by
        have := Nat.mod_lt a (Nat.pos_of_ne_zero hb)
        omega
      obtain ⟨hg, hbez⟩ := ih b (a % b) hrec
      rw [xgcdAuxFuel]
      simp only [if_neg hb]
      constructor
      · rw [hg]
        norm_cast
        rw [Nat.gcd_comm b (a % b), ← Nat.gcd_rec b a, Nat.gcd_comm b a]
      · have hmod : ((a % b : ℕ) : ℤ) + (b : ℤ) * ((a / b : ℕ) : ℤ) = (a : ℤ) := by
          exact_mod_cast Nat.mod_add_div a b
        linear_combination hbez - (xgcdAuxFuel fuel b (a % b)).2.2 * hmod

/-- Embedding of `big.Int.ModInverse(g, n)`: the multiplicative inverse of
`g` modulo `n` in `[0, n)` when `gcd g n = 1`, and `none` (Go returns a nil
pointer, and any later use of it panics) when no inverse exists. -/
def modInverse (g n : ℕ) : Option ℕ :=
  if n = 0 then none
  else
    let t := xgcdAuxFuel (n + 1) g n
    if t.1 = 1 then some (t.2.1 % (n : ℤ)).toNat else none

theorem modInverse_spec (g n x : ℕ) (h : modInverse g n = some x) :
    g * x % n = 1 % n ∧ x < n ∧ Nat.gcd g n = 1 := by
  unfold modInverse at h
  by_cases hn : n = 0
  · simp [hn] at h
  · simp only [if_neg hn] at h
    obtain ⟨hg, hbez⟩ := xgcdAuxFuel_correct (n + 1) g n (by omega)
    by_cases h1 : (xgcdAuxFuel (n + 1) g n).1 = 1
    · simp only [if_pos h1, Option.some_inj] at h
      have hnz : (n : ℤ) ≠ 0 := by exact_mod_cast hn
      have hnpos : (0 : ℤ) < (n : ℤ) := by
        have := Nat.pos_of_ne_zero hn
        exact_mod_cast this
      have hxz : (x : ℤ) = (xgcdAuxFuel (n + 1) g n).2.1 % (n : ℤ) := by
        rw [← h, Int.toNat_of_nonneg (Int.emod_nonneg _ hnz)]
      have hgcd : Nat.gcd g n = 1 := by
        have h2 := hg.symm.trans h1
        exact_mod_cast h2
      refine ⟨?_, ?_, hgcd⟩
      · have h2 : (g : ℤ) * (xgcdAuxFuel (n + 1) g n).2.1 % (n : ℤ) = 1 % (n : ℤ) := by
          have e1 : (g : ℤ) * (xgcdAuxFuel (n + 1) g n).2.1 =
              1 + (n : ℤ) * (-(xgcdAuxFuel (n + 1) g n).2.2) := by
            rw [h1] at hbez
            linarith
          rw [e1, Int.add_mul_emod_self_left]
        have h3 : (g : ℤ) * (x : ℤ) % (n : ℤ) = 1 % (n : ℤ) := by
          rw [hxz, Int.mul_emod, Int.emod_emod_of_dvd _ (dvd_refl _),
            ← Int.mul_emod, h2]
        exact_mod_cast h3
      · have h4 : (x : ℤ) < (n : ℤ) := by
          rw [hxz]
          exact Int.emod_lt_of_pos _ hnpos
        exact_mod_cast h4
    · simp [h1] at h

theorem modInverse_isSome (g n : ℕ) (hn : n ≠ 0) (h : Nat.gcd g n = 1) :
    (modInverse g n).isSome := by
  unfold modInverse
  obtain ⟨hg, _⟩ := xgcdAuxFuel_correct (n + 1) g n (by omega)
  have h1 : (xgcdAuxFuel (n + 1) g n).1 = 1 := by rw [hg, h]; norm_num
  simp [hn, h1]

theorem modInverse_eq_none (g n : ℕ) (h : Nat.gcd g n ≠ 1) :
    modInverse g n = none := by
  unfold modInverse
  by_cases hn : n = 0
  · simp [hn]
  · obtain ⟨hg, _⟩ := xgcdAuxFuel_correct (n + 1) g n (by omega)
    have h1 : (xgcdAuxFuel (n + 1) g n).1 ≠ 1 := by
      rw [hg]
      intro hc
      exact h (by exact_mod_cast hc)
    simp [hn, h1]

/-!
## Single-party Paillier core

Embedded from the newest revision of the source (`PublicKey`,
`EncryptWithR`, `Encrypt`, `Add`, `SecretKey`, `Decrypt`,
`CreateSecretKey`).  `G` is stored explicitly as in the source but
`CreateSecretKey` always sets `G = N + 1`.  Error returns (the
out-of-range plaintext error, and the panic on a nil `ModInverse`
result inside `Decrypt`) are modelled by `Option`.
-/

structure PublicKey where
  N : ℕ
  G : ℕ
deriving DecidableEq

def PublicKey.GetNSquare (pk : PublicKey) : ℕ := pk.N * pk.N

/-- `EncryptWithR`: requires `0 ≤ m < N` (otherwise the source returns the
out-of-allowed-plaintext-space error, modelled as `none`), and returns
`((r^N mod N²) * (G^m mod N²)) mod N²`. -/
def PublicKey.EncryptWithR (pk : PublicKey) (m : ℤ) (r : ℕ) : Option ℕ :=
  if m < 0 ∨ (pk.N : ℤ) ≤ m then none
  else
    let nSquare := pk.GetNSquare
    let gm := powMod pk.G m.toNat nSquare
    let rn := powMod r pk.N nSquare
    some (rn * gm % nSquare)

/-- `Add` accumulates the product of the cyphertexts modulo `N²`,
starting from `1`. -/
def PublicKey.Add (pk : PublicKey) (cyphers : List ℕ) : ℕ :=
  cyphers.foldl (fun acc c => acc * c % pk.GetNSquare) 1

/-- The `L` function, `L(u, n) = (u - 1) / n`, on Euclidean integer
division exactly as `big.Int.Div` computes it. -/
def L (u n : ℤ) : ℤ := (u - 1) / n

structure SecretKey where
  N : ℕ
  G : ℕ
  Lambda : ℕ
deriving DecidableEq

def SecretKey.toPublicKey (sk : SecretKey) : PublicKey := ⟨sk.N, sk.G⟩

def SecretKey.GetNSquare (sk : SecretKey) : ℕ := sk.N * sk.N

/-- `Decrypt`: `mu := ModInverse(λ, N)` (nil, i.e. a later panic, when
`gcd(λ, N) ≠ 1`), then `(L(c^λ mod N², N) * mu) mod N`. -/
def SecretKey.Decrypt (sk : SecretKey) (c : ℕ) : Option ℤ :=
  (modInverse sk.Lambda sk.N).map fun mu : ℕ =>
    L ((powMod c sk.Lambda sk.GetNSquare : ℕ) : ℤ) (sk.N : ℤ) * ((mu : ℕ) : ℤ) % (sk.N : ℤ)

def computePhi (p q : ℕ) : ℕ := (p - 1) * (q - 1)

/-- `CreateSecretKey(p, q)`: `N = pq`, `G = N+1`, `λ = (p-1)(q-1)`. -/
def CreateSecretKey (p q : ℕ) : SecretKey :=
  { N := p * q, G := p * q + 1, Lambda := computePhi p q }

/-!
### Correctness core for Paillier decryption
-/

/-- Binomial fact driving Paillier: `(N+1)^k ≡ 1 + kN  (mod N²)`. -/
theorem one_add_pow_modEq (N k : ℕ) : (N + 1) ^ k ≡ 1 + k * N [MOD N ^ 2] := by
  induction k with
  | zero => simpa using Nat.ModEq.refl 1
  | succ k ih =>
    have h1 : (N + 1) ^ (k + 1) ≡ (1 + k * N) * (N + 1) [MOD N ^ 2] := by
      rw [pow_succ]
      exact ih.mul_right (N + 1)
    have h2 : (1 + k * N) * (N + 1) = 1 + (k + 1) * N + k * N ^ 2 := by ring
    have h3 : 1 + (k + 1) * N + k * N ^ 2 ≡ 1 + (k + 1) * N + 0 [MOD N ^ 2] :=
      Nat.ModEq.add_left _ (Nat.modEq_zero_iff_dvd.mpr ⟨k, by ring⟩)
    calc (N + 1) ^ (k + 1) ≡ (1 + k * N) * (N + 1) [MOD N ^ 2] := h1
      _ = 1 + (k + 1) * N + k * N ^ 2 := h2
      _ ≡ 1 + (k + 1) * N + 0 [MOD N ^ 2] := h3
      _ = 1 + (k + 1) * N := by ring

/-- Euler totient of `(pq)²` for distinct primes `p`, `q` is
`pq·(p-1)(q-1)`. -/
theorem totient_pq_sq (p q : ℕ) (hp : p.Prime) (hq : q.Prime) (hne : p ≠ q) :
    Nat.totient ((p * q) ^ 2) = p * q * ((p - 1) * (q - 1)) := by
  have hco : Nat.Coprime (p ^ 2) (q ^ 2) :=
    ((Nat.coprime_primes hp hq).mpr hne).pow 2 2
  rw [mul_pow, Nat.totient_mul hco,
    Nat.totient_prime_pow hp (by norm_num : 0 < 2),
    Nat.totient_prime_pow hq (by norm_num : 0 < 2)]
  ring

/-- Units modulo `N` raised to `N·(p-1)(q-1)` are `1` modulo `N²`. -/
theorem pow_N_lambda_modEq (p q r : ℕ) (hp : p.Prime) (hq : q.Prime)
    (hne : p ≠ q) (hr : Nat.Coprime r (p * q)) :
    r ^ (p * q * ((p - 1) * (q - 1))) ≡ 1 [MOD (p * q) ^ 2] := by
  have hr2 : Nat.Coprime r ((p * q) ^ 2) := hr.pow_right 2
  have := Nat.ModEq.pow_totient hr2
  rwa [totient_pq_sq p q hp hq hne] at this

/-- The ciphertext value computed by `EncryptWithR` with exponent `k`. -/
def rawCipher (N k r : ℕ) : ℕ :=
  powMod r N (N * N) * powMod (N + 1) k (N * N) % (N * N)

theorem rawCipher_pow_lambda (p q r k : ℕ) (hp : p.Prime) (hq : q.Prime)
    (hne : p ≠ q) (hr : Nat.Coprime r (p * q)) :
    powMod (rawCipher (p * q) k r) ((p - 1) * (q - 1)) (p * q * (p * q)) =
      1 + k * ((p - 1) * (q - 1)) % (p * q) * (p * q) := by
  set N := p * q with hN
  set lam := (p - 1) * (q - 1) with hlam
  have hN2 : 2 ≤ N := by
    have := hp.two_le
    have := hq.two_le
    calc 2 = 2 * 1 := by norm_num
      _ ≤ p * q := Nat.mul_le_mul hp.two_le (by omega)
  have hNsq : N * N = N ^ 2 := by ring
  -- c ≡ r^N · (N+1)^k (mod N²)
  have hc : rawCipher N k r ≡ r ^ N * (N + 1) ^ k [MOD N ^ 2] := by
    unfold rawCipher
    rw [powMod_eq, powMod_eq, hNsq]
    calc r ^ N % N ^ 2 * ((N + 1) ^ k % N ^ 2) % N ^ 2
        = r ^ N * (N + 1) ^ k % N ^ 2 := by rw [← Nat.mul_mod]
      _ ≡ r ^ N * (N + 1) ^ k [MOD N ^ 2] := (Nat.mod_modEq _ _)
  -- c^λ ≡ (1 + kλN) (mod N²)
  have hclam : rawCipher N k r ^ lam ≡ 1 + k * lam * N [MOD N ^ 2] := by
    have h1 : rawCipher N k r ^ lam ≡ (r ^ N * (N + 1) ^ k) ^ lam [MOD N ^ 2] :=
      hc.pow lam
    have h2 : (r ^ N * (N + 1) ^ k) ^ lam = r ^ (N * lam) * (N + 1) ^ (k * lam) := by
      rw [mul_pow, ← pow_mul, ← pow_mul]
    have h3 : r ^ (N * lam) ≡ 1 [MOD N ^ 2] := by
      have := pow_N_lambda_modEq p q r hp hq hne hr
      rwa [← hN, ← hlam] at this
    have h4 : (N + 1) ^ (k * lam) ≡ 1 + k * lam * N [MOD N ^ 2] :=
      one_add_pow_modEq N (k * lam)
    calc rawCipher N k r ^ lam ≡ r ^ (N * lam) * (N + 1) ^ (k * lam) [MOD N ^ 2] :=
        h2 ▸ h1
      _ ≡ 1 * (1 + k * lam * N) [MOD N ^ 2] := h3.mul h4
      _ = 1 + k * lam * N := by ring
  -- reduce the exponent multiple of N
  have hred : 1 + k * lam * N ≡ 1 + k * lam % N * N [MOD N ^ 2] := by
    have hsplit : k * lam = N * (k * lam / N) + k * lam % N := (Nat.div_add_mod _ _).symm
    have : 1 + k * lam * N = 1 + k * lam % N * N + k * lam / N * N ^ 2 := by
      conv_lhs => rw [hsplit]
      ring
    rw [this]
    calc 1 + k * lam % N * N + k * lam / N * N ^ 2
        ≡ 1 + k * lam % N * N + 0 [MOD N ^ 2] :=
          Nat.ModEq.add_left _ (Nat.modEq_zero_iff_dvd.mpr ⟨k * lam / N, by ring⟩)
      _ = 1 + k * lam % N * N := by ring
  have hfinal : rawCipher N k r ^ lam ≡ 1 + k * lam % N * N [MOD N ^ 2] :=
    hclam.trans hred
  have hlt : 1 + k * lam % N * N < N ^ 2 := by
    have hmod : k * lam % N < N := Nat.mod_lt _ (by omega)
    have hle : k * lam % N * N ≤ (N - 1) * N := Nat.mul_le_mul_right N (by omega)
    have h1 : (N - 1) * N = N * N - N := by rw [Nat.sub_mul, one_mul]
    have h2 : N ≤ N * N := Nat.le_mul_of_pos_left N (by omega)
    have h3 : N ^ 2 = N * N := by ring
    omega
  rw [powMod_eq, hNsq]
  calc rawCipher N k r ^ lam % N ^ 2 = (1 + k * lam % N * N) % N ^ 2 := hfinal
    _ = 1 + k * lam % N * N := Nat.mod_eq_of_lt hlt

/-- Full decryption correctness for a raw ciphertext with exponent `k`:
under `gcd(λ, N) = 1` the decryption returns `k mod N`. -/
theorem decrypt_rawCipher (p q r k : ℕ) (hp : p.Prime) (hq : q.Prime)
    (hne : p ≠ q) (hlamco : Nat.Coprime ((p - 1) * (q - 1)) (p * q))
    (hr : Nat.Coprime r (p * q)) :
    (CreateSecretKey p q).Decrypt (rawCipher (p * q) k r) =
      some ((k % (p * q) : ℕ) : ℤ) := by
  set N := p * q with hN
  set lam := (p - 1) * (q - 1) with hlam
  have hp2 := hp.two_le
  have hq2 := hq.two_le
  have hNpos : N ≠ 0 := Nat.mul_ne_zero (by omega) (by omega)
  obtain ⟨mu, hmu⟩ := Option.isSome_iff_exists.mp (modInverse_isSome lam N hNpos hlamco)
  obtain ⟨hmu1, hmult, _⟩ := modInverse_spec lam N mu hmu
  have hN2 : 2 ≤ N := by
    calc 2 = 2 * 1 := by norm_num
      _ ≤ p * q := Nat.mul_le_mul hp2 (by omega)
  unfold SecretKey.Decrypt
  have hkey : (CreateSecretKey p q).Lambda = lam := rfl
  have hkeyN : (CreateSecretKey p q).N = N := rfl
  have hkeysq : (CreateSecretKey p q).GetNSquare = N * N := rfl
  rw [hkey, hkeyN, hkeysq, hmu, Option.map_some']
  congr 1
  rw [rawCipher_pow_lambda p q r k hp hq hne hr]
  -- L((1 + (kλ % N)·N), N) = kλ % N
  have hL : L ((1 + k * lam % N * N : ℕ) : ℤ) (N : ℤ) = ((k * lam % N : ℕ) : ℤ) := by
    unfold L
    push_cast
    rw [add_comm, add_sub_cancel_right]
    exact Int.mul_ediv_cancel _ (by exact_mod_cast hNpos)
  rw [hL]
  -- (kλ % N) · mu ≡ k (mod N)
  have hmod : (k * lam % N) * mu % N = k % N := by
    have h1 : k * lam % N * mu ≡ k * lam * mu [MOD N] :=
      (Nat.mod_modEq (k * lam) N).mul_right mu
    have h2 : k * lam * mu = k * (lam * mu) := by ring
    have h3 : k * (lam * mu) ≡ k * (1 % N) [MOD N] := by
      have : lam * mu ≡ 1 % N [MOD N] := by
        unfold Nat.ModEq
        rw [hmu1, Nat.mod_mod_of_dvd _ (dvd_refl N)]
      exact this.mul_left k
    have h4 : k * (1 % N) ≡ k * 1 [MOD N] := (Nat.mod_modEq 1 N).mul_left k
    have h5 := (h1.trans (h2 ▸ h3)).trans h4
    have h6 : k * lam % N * mu ≡ k [MOD N] := by simpa using h5
    exact h6
  exact_mod_cast hmod

/-- `rawCipher` is congruent to `r^N · (N+1)^k` modulo `N²`. -/
theorem rawCipher_modEq (N k r : ℕ) :
    rawCipher N k r ≡ r ^ N * (N + 1) ^ k [MOD N ^ 2] := by
  unfold rawCipher
  rw [powMod_eq, powMod_eq]
  have hNsq : N * N = N ^ 2 := by ring
  rw [hNsq]
  calc r ^ N % N ^ 2 * ((N + 1) ^ k % N ^ 2) % N ^ 2
      = r ^ N * (N + 1) ^ k % N ^ 2 := by rw [← Nat.mul_mod]
    _ ≡ r ^ N * (N + 1) ^ k [MOD N ^ 2] := Nat.mod_modEq _ _

theorem rawCipher_lt (N k r : ℕ) (hN : 2 ≤ N) : rawCipher N k r < N * N := by
  unfold rawCipher
  exact Nat.mod_lt _ (by nlinarith)

/-- Multiplying two raw ciphertexts modulo `N²` gives the raw ciphertext
of the summed exponents and multiplied randomness. -/
theorem rawCipher_mul (N k1 k2 r1 r2 : ℕ) (hN : 2 ≤ N) :
    rawCipher N k1 r1 * rawCipher N k2 r2 % (N * N) =
      rawCipher N (k1 + k2) (r1 * r2) := by
  have hNsq : N * N = N ^ 2 := by ring
  have h1 : rawCipher N k1 r1 * rawCipher N k2 r2 ≡
      (r1 * r2) ^ N * (N + 1) ^ (k1 + k2) [MOD N ^ 2] := by
    calc rawCipher N k1 r1 * rawCipher N k2 r2
        ≡ r1 ^ N * (N + 1) ^ k1 * (r2 ^ N * (N + 1) ^ k2) [MOD N ^ 2] :=
          (rawCipher_modEq N k1 r1).mul (rawCipher_modEq N k2 r2)
      _ = (r1 * r2) ^ N * (N + 1) ^ (k1 + k2) := by
          rw [mul_pow, pow_add]; ring
  have h2 : rawCipher N k1 r1 * rawCipher N k2 r2 ≡
      rawCipher N (k1 + k2) (r1 * r2) [MOD N ^ 2] :=
    h1.trans (rawCipher_modEq N (k1 + k2) (r1 * r2)).symm
  have h3 : rawCipher N (k1 + k2) (r1 * r2) < N * N := rawCipher_lt _ _ _ hN
  have h4 := h2
  unfold Nat.ModEq at h4
  rw [← hNsq] at h4
  rw [h4]
  exact Nat.mod_eq_of_lt h3

/-- **C6.** `EncryptWithR` (and hence `Encrypt`, which draws `r` and then
calls it) succeeds exactly on plaintexts `0 ≤ m < N` and fails with the
invalid-plaintext error (modelled `none`) on every `m < 0` or `m ≥ N`. -/
theorem claimC6 (pk : PublicKey) (m : ℤ) (r : ℕ) :
    (0 ≤ m ∧ m < (pk.N : ℤ) → (pk.EncryptWithR m r).isSome) ∧
    ((m < 0 ∨ (pk.N : ℤ) ≤ m) → pk.EncryptWithR m r = none) := by
  constructor
  · rintro ⟨h0, hN⟩
    unfold PublicKey.EncryptWithR
    rw [if_neg (by omega)]
    rfl
  · intro h
    unfold PublicKey.EncryptWithR
    rw [if_pos h]

/-- Witness for C6 on the key of the repository's own boundary test
(`p = 13`, `q = 11`, `N = 143`): `m = 5` encrypts, `m = 143`, `m = -1`
and `m = 144` are rejected. -/
theorem claimC6_witness :
    ((CreateSecretKey 13 11).toPublicKey.EncryptWithR 5 2).isSome ∧
    (CreateSecretKey 13 11).toPublicKey.EncryptWithR 143 2 = none ∧
    (CreateSecretKey 13 11).toPublicKey.EncryptWithR (-1) 2 = none ∧
    (CreateSecretKey 13 11).toPublicKey.EncryptWithR 144 2 = none :=
  ⟨(claimC6 _ 5 2).1 (by constructor <;> decide),
   (claimC6 _ 143 2).2 (by right; decide),
   (claimC6 _ (-1) 2).2 (by left; decide),
   (claimC6 _ 144 2).2 (by right; decide)⟩

/-- **C1 (amended).** Decryption inverts encryption for distinct odd
primes `p`, `q` *provided additionally* `gcd((p-1)(q-1), pq) = 1`, the
side condition `CreateSecretKey`'s documentation demands
("or other such that gcd(pq, (p-1)(q-1)) = 1"). -/
theorem claimC1 (p q : ℕ) (m : ℤ) (r c : ℕ)
    (hp : Nat.Prime p) (hq : Nat.Prime q) (_hpodd : Odd p) (_hqodd : Odd q)
    (hne : p ≠ q) (hco : Nat.Coprime ((p - 1) * (q - 1)) (p * q))
    (hr : Nat.Coprime r (p * q))
    (hm0 : 0 ≤ m) (hmN : m < ((p * q : ℕ) : ℤ))
    (henc : (CreateSecretKey p q).toPublicKey.EncryptWithR m r = some c) :
    (CreateSecretKey p q).Decrypt c = some m := by
  have hc : c = rawCipher (p * q) m.toNat r := by
    unfold PublicKey.EncryptWithR at henc
    rw [if_neg (by
      rw [show (CreateSecretKey p q).toPublicKey.N = p * q from rfl]
      omega)] at henc
    exact (Option.some_inj.mp henc).symm
  subst hc
  rw [decrypt_rawCipher p q r m.toNat hp hq hne hco hr]
  have hlt : m.toNat < p * q := by omega
  rw [Nat.mod_eq_of_lt hlt]
  congr 1
  omega

/-- Witness for C1 at `p = 3`, `q = 5`, `m = 7`, `r = 2`
(`gcd(15, 8) = 1` holds). -/
theorem claimC1_witness :
    (CreateSecretKey 3 5).toPublicKey.EncryptWithR 7 2 = some 83 ∧
    (CreateSecretKey 3 5).Decrypt 83 = some 7 :=
  ⟨by decide,
   claimC1 3 5 7 2 83 (by norm_num) (by norm_num) (by decide) (by decide)
     (by norm_num) (by decide) (by decide) (by norm_num) (by norm_num)
     (by decide)⟩

/-- **C1, counterexample to the claim as stated.**  For the distinct odd
primes `p = 3`, `q = 7` and the valid plaintext `m = 2` with randomness
`r = 1` from the multiplicative group, decryption does *not* return `m`:
`gcd(λ, N) = gcd(12, 21) = 3`, so `ModInverse(λ, N)` is nil and `Decrypt`
panics (modelled `none`) instead of returning `2`. -/
theorem claimC1_counterexample :
    Nat.Prime 3 ∧ Nat.Prime 7 ∧ Odd 3 ∧ Odd 7 ∧ (3 : ℕ) ≠ 7 ∧
    Nat.Coprime 1 (3 * 7) ∧ (0 : ℤ) ≤ 2 ∧ (2 : ℤ) < ((3 * 7 : ℕ) : ℤ) ∧
    (CreateSecretKey 3 7).toPublicKey.EncryptWithR 2 1 = some 43 ∧
    (CreateSecretKey 3 7).Decrypt 43 = none := by
  refine ⟨?_, ?_, ?_, ?_, ?_, ?_, ?_, ?_, ?_, ?_⟩ <;> decide

/-- Folding multiply-then-reduce over a list computes the product
modulo `n`, up to one final reduction. -/
theorem foldl_mulmod (n : ℕ) : ∀ (cs : List ℕ) (a : ℕ),
    cs.foldl (fun acc c => acc * c % n) a % n = a * cs.prod % n := by
  intro cs
  induction cs with
  | nil => intro a; simp
  | cons c rest ih =>
    intro a
    simp only [List.foldl_cons, List.prod_cons]
    rw [ih (a * c % n)]
    conv_lhs => rw [Nat.mul_mod, Nat.mod_mod_of_dvd _ (dvd_refl n), ← Nat.mul_mod]
    rw [mul_assoc]

/-- On a non-empty list the fold's result is already reduced modulo `n`. -/
theorem foldl_mulmod_reduced (n : ℕ) : ∀ (cs : List ℕ) (a : ℕ), cs ≠ [] →
    cs.foldl (fun acc c => acc * c % n) a % n =
      cs.foldl (fun acc c => acc * c % n) a := by
  intro cs
  induction cs with
  | nil => intro a h; exact absurd rfl h
  | cons c rest ih =>
    intro a _
    simp only [List.foldl_cons]
    by_cases hrest : rest = []
    · subst hrest
      simp [Nat.mod_mod_of_dvd _ (dvd_refl n)]
    · exact ih (a * c % n) hrest

/-- **C7 (amended).** `Add` returns the product of the ciphertexts
reduced modulo `N²`, and — on a key satisfying the `gcd(pq,(p-1)(q-1))=1`
side condition that decryption needs (see C1) — decrypting the sum of two
encryptions yields `(m₁ + m₂) mod N`. -/
theorem claimC7 (pk : PublicKey) (cs : List ℕ) (p q : ℕ) (m1 m2 : ℤ)
    (r1 r2 c1 c2 : ℕ) :
    (cs ≠ [] → pk.Add cs = cs.prod % pk.GetNSquare) ∧
    (Nat.Prime p → Nat.Prime q → p ≠ q →
      Nat.Coprime ((p - 1) * (q - 1)) (p * q) →
      Nat.Coprime r1 (p * q) → Nat.Coprime r2 (p * q) →
      0 ≤ m1 → m1 < ((p * q : ℕ) : ℤ) → 0 ≤ m2 → m2 < ((p * q : ℕ) : ℤ) →
      (CreateSecretKey p q).toPublicKey.EncryptWithR m1 r1 = some c1 →
      (CreateSecretKey p q).toPublicKey.EncryptWithR m2 r2 = some c2 →
      (CreateSecretKey p q).Decrypt ((CreateSecretKey p q).toPublicKey.Add [c1, c2]) =
        some ((m1 + m2) % ((p * q : ℕ) : ℤ))) := by
  constructor
  · intro hne
    unfold PublicKey.Add
    rw [← foldl_mulmod_reduced _ _ _ hne, foldl_mulmod, one_mul]
  · intro hp hq hne hco hr1 hr2 hm10 hm1N hm20 hm2N henc1 henc2
    have hN2 : 2 ≤ p * q := by
      calc 2 = 2 * 1 := by norm_num
        _ ≤ p * q := Nat.mul_le_mul hp.two_le (by have := hq.two_le; omega)
    have hc1 : c1 = rawCipher (p * q) m1.toNat r1 := by
      unfold PublicKey.EncryptWithR at henc1
      rw [if_neg (by
        rw [show (CreateSecretKey p q).toPublicKey.N = p * q from rfl]
        omega)] at henc1
      exact (Option.some_inj.mp henc1).symm
    have hc2 : c2 = rawCipher (p * q) m2.toNat r2 := by
      unfold PublicKey.EncryptWithR at henc2
      rw [if_neg (by
        rw [show (CreateSecretKey p q).toPublicKey.N = p * q from rfl]
        omega)] at henc2
      exact (Option.some_inj.mp henc2).symm
    have hadd : (CreateSecretKey p q).toPublicKey.Add [c1, c2] =
        rawCipher (p * q) (m1.toNat + m2.toNat) (r1 * r2) := by
      show (1 * c1 % (p * q * (p * q))) * c2 % (p * q * (p * q)) = _
      rw [one_mul, hc1, hc2]
      rw [Nat.mod_eq_of_lt (rawCipher_lt _ _ _ hN2)]
      exact rawCipher_mul (p * q) m1.toNat m2.toNat r1 r2 hN2
    rw [hadd, decrypt_rawCipher p q (r1 * r2) (m1.toNat + m2.toNat) hp hq hne hco
      (hr1.mul hr2)]
    congr 1
    push_cast [Int.toNat_of_nonneg hm10, Int.toNat_of_nonneg hm20]
    rfl

/-!
## Threshold Paillier keys

Embedded from the threshold revision of the source
(`ThresholdPublicKey`, `ThresholdSecretKey`, `PartialDecryption`,
combining; the older revision names these `ThresholdKey` /
`ThresholdPrivateKey` with identical logic).  Server ids are Go `int`s,
so they are embedded as `ℤ`; `Decryption` is a `big.Int` field that
untrusted parties may set to any integer, so it is `ℤ` as well.
-/

/-- Source loop `ret = 1; for i in 1..n { ret = ret * i }`. -/
def Factorial (n : ℕ) : ℕ := (List.range n).foldl (fun acc i => acc * (i + 1)) 1

theorem Factorial_eq (n : ℕ) : Factorial n = n.factorial := by
  induction n with
  | zero => rfl
  | succ n ih =>
    unfold Factorial at ih ⊢
    rw [List.range_succ, List.foldl_append, ih, Nat.factorial_succ]
    simp [Nat.mul_comm]

inductive CombineError where
  | thresholdNotMet
  | duplicateShare
deriving DecidableEq

structure PartialDecryption where
  Id : ℤ
  Decryption : ℤ
deriving DecidableEq, Inhabited

structure ThresholdPublicKey where
  N : ℕ
  TotalNumberOfDecryptionServers : ℕ
  Threshold : ℕ
  V : ℕ
  Vi : List ℕ
deriving DecidableEq, Inhabited

def ThresholdPublicKey.GetNSquare (tk : ThresholdPublicKey) : ℕ := tk.N * tk.N

def ThresholdPublicKey.delta (tk : ThresholdPublicKey) : ℕ :=
  Factorial tk.TotalNumberOfDecryptionServers

/-- `[(4·Δ²)]⁻¹ mod N`; nil (`none`) when not invertible. -/
def ThresholdPublicKey.combineSharesConstant (tk : ThresholdPublicKey) : Option ℕ :=
  modInverse (4 * (tk.delta * tk.delta)) tk.N

/-- Precheck before combining: threshold and duplicate-id test, the
latter via the size of the map keyed by ids (embedded as `dedup`). -/
def ThresholdPublicKey.verifyPartialDecryptions (tk : ThresholdPublicKey)
    (shares : List PartialDecryption) : Option CombineError :=
  if shares.length < tk.Threshold then some .thresholdNotMet
  else if (shares.map (·.Id)).dedup.length ≠ shares.length then some .duplicateShare
  else none

/-- One step of the Lagrange-coefficient loop:
`lambda * (-share2.Id) / (share1.Id - share2.Id)` with Euclidean
division, exactly as `big.Int.Div` computes it. -/
def ThresholdPublicKey.updateLambda (_tk : ThresholdPublicKey)
    (share1 share2 : PartialDecryption) (lambda : ℤ) : ℤ :=
  lambda * (-share2.Id) / (share1.Id - share2.Id)

/-- The Lagrange coefficient of `share` in the set `shares`, accumulated
iteratively starting from `Δ`. -/
def ThresholdPublicKey.computeLambda (tk : ThresholdPublicKey)
    (share : PartialDecryption) (shares : List PartialDecryption) : ℤ :=
  shares.foldl
    (fun lambda share2 =>
      if share2.Id ≠ share.Id then tk.updateLambda share share2 lambda else lambda)
    (tk.delta : ℤ)

/-- The `exp` helper: `a^b mod c`, using the modular inverse (which can
be nil, i.e. a panic, modelled `none`) when `b` is negative.  The base
is reduced modulo `c` first as `big.Int.Exp` does for any base. -/
def ThresholdPublicKey.exp (_tk : ThresholdPublicKey) (a b : ℤ) (c : ℕ) : Option ℕ :=
  if b < 0 then modInverse (powMod (a % (c : ℤ)).toNat (-b).toNat c) c
  else some (powMod (a % (c : ℤ)).toNat b.toNat c)

def ThresholdPublicKey.updateCprime (tk : ThresholdPublicKey) (cprime : ℕ)
    (lambda : ℤ) (share : PartialDecryption) : Option ℕ :=
  (tk.exp share.Decryption (2 * lambda) tk.GetNSquare).map fun ret =>
    cprime * ret % tk.GetNSquare

def ThresholdPublicKey.computeDecryption (tk : ThresholdPublicKey) (cprime : ℕ) :
    Option ℤ :=
  tk.combineSharesConstant.map fun csc =>
    (csc : ℤ) * L (cprime : ℤ) (tk.N : ℤ) % (tk.N : ℤ)

/-- Share combining.  A precheck failure is an `Except.error`; a panic
during the arithmetic (nil `ModInverse`) is `Except.ok none`. -/
def ThresholdPublicKey.CombinePartialDecryptions (tk : ThresholdPublicKey)
    (shares : List PartialDecryption) : Except CombineError (Option ℤ) :=
  match tk.verifyPartialDecryptions shares with
  | some e => .error e
  | none =>
    let cprime := shares.foldl
      (fun acc share => acc.bind fun cp =>
        tk.updateCprime cp (tk.computeLambda share shares) share)
      (some 1)
    .ok (cprime.bind tk.computeDecryption)

structure ThresholdSecretKey where
  N : ℕ
  TotalNumberOfDecryptionServers : ℕ
  Threshold : ℕ
  V : ℕ
  Vi : List ℕ
  Id : ℤ
  Share : ℕ
deriving DecidableEq, Inhabited

/-- The public-key view embedded (by value) in a secret key; mirrors
`getThresholdKey`, which copies these fields. -/
def ThresholdSecretKey.toThresholdPublicKey (tsk : ThresholdSecretKey) :
    ThresholdPublicKey :=
  ⟨tsk.N, tsk.TotalNumberOfDecryptionServers, tsk.Threshold, tsk.V, tsk.Vi⟩

def ThresholdSecretKey.GetNSquare (tsk : ThresholdSecretKey) : ℕ := tsk.N * tsk.N

def ThresholdSecretKey.delta (tsk : ThresholdSecretKey) : ℕ :=
  Factorial tsk.TotalNumberOfDecryptionServers

/-- Partial decryption: `c_i = c^(2·Δ·s) mod N²` (the source computes the
exponent as `Share * (2 * delta)`). -/
def ThresholdSecretKey.Decrypt (tsk : ThresholdSecretKey) (c : ℕ) : PartialDecryption :=
  { Id := tsk.Id,
    Decryption := ((powMod c (tsk.Share * (2 * tsk.delta)) tsk.GetNSquare : ℕ) : ℤ) }

/-!
## Threshold key generator

`GetThresholdKeyGenerator` validation and the dealer's `Generate`.  The
randomness consumed by `Generate` (the safe primes from
`GenerateSafePrime`, the quadratic residue used for `V`, the polynomial
coefficients) is passed in explicitly; the retry loop on bad prime
pairs (`arePsAndQsGood`) is a property of those inputs, stated as
hypotheses where needed.
-/

/-- Parameter validation of `GetThresholdKeyGenerator`, exactly as in the
source: only `publicKeyBitLength < 18` is rejected. -/
def GetThresholdKeyGenerator (publicKeyBitLength totalNumberOfDecryptionServers
    threshold : ℕ) : Except String (ℕ × ℕ × ℕ) :=
  if publicKeyBitLength < 18 then
    .error "Public key bit length must be at least 18 bits"
  else
    .ok (publicKeyBitLength, totalNumberOfDecryptionServers, threshold)

def arePsAndQsGood (p p1 q q1 : ℕ) : Bool :=
  ¬(p = q) ∧ ¬(p = q1) ∧ ¬(p1 = q)

/-- `computeShare`: `f(index+1) mod nm` for the hiding polynomial with
the given coefficient list (first coefficient is `d`). -/
def computeShare (coeffs : List ℕ) (nm t index : ℕ) : ℕ :=
  ((List.range t).foldl (fun share i => share + coeffs.getD i 0 * (index + 1) ^ i) 0) % nm

/-- The dealer's `Generate`, given the safe-prime draws `p = 2p₁+1`,
`q = 2q₁+1`, the random residue `rv` squared into the generator `V`, and
the `t-1` random polynomial coefficients.  The only failure point it
keeps is `initD`'s `ModInverse(m, n)` (nil means a panic in `initD`). -/
def GenerateKeys (l t p p1 q q1 rv : ℕ) (coeffs : List ℕ) :
    Option (List ThresholdSecretKey) :=
  let n := p * q
  let m := p1 * q1
  let nSquare := n * n
  let nm := n * m
  let v := rv * rv % nSquare
  (modInverse m n).map fun mInverse =>
    let d := mInverse * m
    let polynomialCoefficients := d :: coeffs
    let shares := (List.range l).map fun i => computeShare polynomialCoefficients nm t i
    let delta := Factorial l
    let viArray := shares.map fun share => powMod v (share * delta) nSquare
    (List.range l).map fun i =>
      { N := n, TotalNumberOfDecryptionServers := l, Threshold := t, V := v,
        Vi := viArray, Id := ((i + 1 : ℕ) : ℤ), Share := shares.getD i 0 }

/-!
### C8: combine precheck, and C9: generator validation
-/

theorem dedup_length_eq_iff (l : List ℤ) : l.dedup.length = l.length ↔ l.Nodup := by
  constructor
  · intro h
    have hsub : List.Sublist l.dedup l := l.dedup_sublist
    have heq := hsub.eq_of_length h
    rw [← heq]
    exact l.nodup_dedup
  · intro h
    rw [List.dedup_eq_self.mpr h]

/-- **C8.** `CombinePartialDecryptions` rejects fewer than `t` shares
with the threshold error, rejects duplicated server ids with the
duplicate error, and on at least `t` shares with pairwise distinct ids
the precheck passes and combining proceeds to a (non-`error`) result. -/
theorem claimC8 (tk : ThresholdPublicKey) (shares : List PartialDecryption) :
    (shares.length < tk.Threshold →
      tk.CombinePartialDecryptions shares = .error .thresholdNotMet) ∧
    (tk.Threshold ≤ shares.length → ¬ (shares.map (·.Id)).Nodup →
      tk.CombinePartialDecryptions shares = .error .duplicateShare) ∧
    (tk.Threshold ≤ shares.length → (shares.map (·.Id)).Nodup →
      ∃ res, tk.CombinePartialDecryptions shares = .ok res) := by
  refine ⟨?_, ?_, ?_⟩
  · intro hlt
    unfold ThresholdPublicKey.CombinePartialDecryptions
      ThresholdPublicKey.verifyPartialDecryptions
    rw [if_pos hlt]
  · intro hge hdup
    have hlen : (shares.map (·.Id)).dedup.length ≠ shares.length := by
      intro hc
      apply hdup
      exact (dedup_length_eq_iff _).mp (by rw [List.length_map]; exact hc)
    unfold ThresholdPublicKey.CombinePartialDecryptions
      ThresholdPublicKey.verifyPartialDecryptions
    rw [if_neg (by omega), if_pos hlen]
  · intro hge hnodup
    have hlen : (shares.map (·.Id)).dedup.length = shares.length := by
      have h0 := (dedup_length_eq_iff (shares.map (·.Id))).mpr hnodup
      rwa [List.length_map] at h0
    unfold ThresholdPublicKey.CombinePartialDecryptions
      ThresholdPublicKey.verifyPartialDecryptions
    rw [if_neg (by omega), if_neg (by omega)]
    exact ⟨_, rfl⟩

/-- Witness for C8: a key with threshold 2; one share too few, two
shares with equal ids, and two distinct shares. -/
theorem claimC8_witness :
    (ThresholdPublicKey.CombinePartialDecryptions ⟨15, 2, 2, 4, [1, 1]⟩
        [⟨1, 3⟩] = .error .thresholdNotMet) ∧
    (ThresholdPublicKey.CombinePartialDecryptions ⟨15, 2, 2, 4, [1, 1]⟩
        [⟨1, 3⟩, ⟨1, 5⟩] = .error .duplicateShare) ∧
    ∃ res, ThresholdPublicKey.CombinePartialDecryptions ⟨15, 2, 2, 4, [1, 1]⟩
        [⟨1, 3⟩, ⟨2, 5⟩] = .ok res :=
  ⟨(claimC8 ⟨15, 2, 2, 4, [1, 1]⟩ [⟨1, 3⟩]).1 (by decide),
   (claimC8 ⟨15, 2, 2, 4, [1, 1]⟩ [⟨1, 3⟩, ⟨1, 5⟩]).2.1 (by decide) (by decide),
   (claimC8 ⟨15, 2, 2, 4, [1, 1]⟩ [⟨1, 3⟩, ⟨2, 5⟩]).2.2 (by decide) (by decide)⟩

/-- **C9.** What the code actually does at the claimed inputs: the
generator constructor accepts the odd length `L = 19` (the repository's
own test `TestCreateThresholdKeyGenerator` expects the
"must be an even number" error for 19 and 17), and rejects `17` and `16`
with the at-least-18 error only. -/
theorem claimC9_code_behavior :
    GetThresholdKeyGenerator 19 4 3 = .ok (19, 4, 3) ∧
    GetThresholdKeyGenerator 17 4 3 =
      .error "Public key bit length must be at least 18 bits" ∧
    GetThresholdKeyGenerator 16 4 3 =
      .error "Public key bit length must be at least 18 bits" ∧
    GetThresholdKeyGenerator 18 4 3 = .ok (18, 4, 3) ∧
    GetThresholdKeyGenerator 20 4 3 = .ok (20, 4, 3) :=
  ⟨rfl, rfl, rfl, rfl, rfl⟩

/-- Witness for C7 at `p = 3`, `q = 5`: `Add` of `[2,3]` is their product
mod `N²`, and `D(Add(E(2), E(7))) = 9 = (2 + 7) mod 15`. -/
theorem claimC7_witness :
    (⟨15, 16⟩ : PublicKey).Add [2, 3] =
      ([2, 3] : List ℕ).prod % (⟨15, 16⟩ : PublicKey).GetNSquare ∧
    (CreateSecretKey 3 5).toPublicKey.EncryptWithR 2 2 = some 158 ∧
    (CreateSecretKey 3 5).toPublicKey.EncryptWithR 7 11 = some 56 ∧
    (CreateSecretKey 3 5).Decrypt ((CreateSecretKey 3 5).toPublicKey.Add [158, 56]) =
      some ((2 + 7) % ((3 * 5 : ℕ) : ℤ)) :=
  ⟨(claimC7 ⟨15, 16⟩ [2, 3] 3 5 2 7 2 11 158 56).1 (by decide),
   by decide, by decide,
   (claimC7 (⟨15, 16⟩ : PublicKey) [2, 3] 3 5 2 7 2 11 158 56).2 (by norm_num)
     (by norm_num) (by norm_num) (by decide) (by decide) (by decide) (by norm_num)
     (by decide) (by norm_num) (by decide) (by decide) (by decide)⟩

/-- **C7, counterexample to the claim as stated.**  On the key from the
distinct odd primes `p = 3`, `q = 7` the additive law fails: both
encryptions succeed and `Add` multiplies them mod `N²`, but decryption
panics on the nil `ModInverse(λ, N)` (modelled `none`) instead of
returning `(2 + 3) mod 21 = 5`. -/
theorem claimC7_counterexample :
    Nat.Prime 3 ∧ Nat.Prime 7 ∧ (3 : ℕ) ≠ 7 ∧
    (CreateSecretKey 3 7).toPublicKey.EncryptWithR 2 1 = some 43 ∧
    (CreateSecretKey 3 7).toPublicKey.EncryptWithR 3 1 = some 64 ∧
    (CreateSecretKey 3 7).toPublicKey.Add [43, 64] = 106 ∧
    (CreateSecretKey 3 7).Decrypt ((CreateSecretKey 3 7).toPublicKey.Add [43, 64]) =
      none := by
  refine ⟨?_, ?_, ?_, ?_, ?_, ?_, ?_⟩ <;> decide

/-!
### C4: exactness of the iterated Lagrange-coefficient division

`computeLambda` starts from `Δ = l!` and repeatedly performs the integer
division `lambda := lambda * (-j) / (i - j)`.  The claim is formalised
by `computeLambdaExact`, which follows the spec's words: it performs the
same iteration but *checks* each division for exactness, returning
`none` on the first inexact one; and by the product identity stating
that the result equals `Δ·∏(-j) / ∏(i-j)` as an exact rational.
-/

def lambdaStep (i lambda j : ℤ) : ℤ := lambda * -j / (i - j)

/-- Spec-side exactness-checking variant of one `updateLambda` step. -/
def lambdaStepExact (i lambda j : ℤ) : Option ℤ :=
  if (i - j) ∣ lambda * -j then some (lambda * -j / (i - j)) else none

/-- Spec-side exactness-checking variant of `computeLambda`. -/
def computeLambdaExact (tk : ThresholdPublicKey) (share : PartialDecryption)
    (shares : List PartialDecryption) : Option ℤ :=
  shares.foldl
    (fun acc share2 => acc.bind fun lambda =>
      if share2.Id ≠ share.Id then lambdaStepExact share.Id lambda share2.Id
      else some lambda)
    (some (tk.delta : ℤ))

theorem prod_Icc_one_id_eq_factorial (m : ℕ) :
    (∏ x ∈ Finset.Icc 1 m, x) = m.factorial := by
  induction m with
  | zero => rfl
  | succ m ih =>
    rw [Finset.prod_Icc_succ_top (by omega : 1 ≤ m + 1), ih, Nat.factorial_succ,
      Nat.mul_comm]

theorem prod_dvd_factorial_of_le (m : ℕ) (s : Finset ℕ)
    (hs : ∀ x ∈ s, 1 ≤ x ∧ x ≤ m) : s.prod id ∣ m.factorial := by
  have hsub : s ⊆ Finset.Icc 1 m := fun x hx =>
    Finset.mem_Icc.mpr ⟨(hs x hx).1, (hs x hx).2⟩
  have h1 : s.prod id ∣ (Finset.Icc 1 m).prod id :=
    Finset.prod_dvd_prod_of_subset s _ id hsub
  have h2 : (Finset.Icc 1 m).prod id = m.factorial := prod_Icc_one_id_eq_factorial m
  rwa [h2] at h1

/-- A product of naturals taking pairwise different values in `[1, m]`
divides `m!`. -/
theorem prod_distinct_dvd_factorial (m : ℕ) (s : Finset ℤ) (g : ℤ → ℕ)
    (hinj : ∀ x ∈ s, ∀ y ∈ s, g x = g y → x = y)
    (hbound : ∀ x ∈ s, 1 ≤ g x ∧ g x ≤ m) :
    s.prod g ∣ m.factorial := by
  have himage : ∀ x ∈ s.image g, 1 ≤ x ∧ x ≤ m := by
    intro x hx
    obtain ⟨y, hy, rfl⟩ := Finset.mem_image.mp hx
    exact hbound y hy
  have h1 := prod_dvd_factorial_of_le m (s.image g) himage
  rwa [Finset.prod_image hinj] at h1

/-- The core divisibility behind the factorial trick: over any set of
ids from `{1..l} \ {i}`, the product of the differences `i - j`
divides `l!`. -/
theorem prod_sub_dvd_factorial (l : ℕ) (i : ℤ) (S : Finset ℤ)
    (hi1 : 1 ≤ i) (hil : i ≤ (l : ℤ))
    (hS : ∀ j ∈ S, (1 ≤ j ∧ j ≤ (l : ℤ)) ∧ j ≠ i) :
    (S.prod fun j => i - j) ∣ ((l.factorial : ℕ) : ℤ) := by
  rw [← Int.natAbs_dvd]
  apply Int.natCast_dvd_natCast.mpr
  have habs : (S.prod fun j => i - j).natAbs = S.prod fun j => (i - j).natAbs := by
    refine Finset.induction_on S ?_ ?_
    · simp
    · intro a s ha ih
      rw [Finset.prod_insert ha, Finset.prod_insert ha, Int.natAbs_mul, ih]
  rw [habs]
  rw [← Finset.prod_filter_mul_prod_filter_not S (fun j => j < i)]
  have hiN1 : 1 ≤ i.toNat := by omega
  have hiNl : i.toNat ≤ l := by omega
  have hA : ((S.filter fun j => j < i).prod fun j => (i - j).natAbs) ∣
      (i.toNat - 1).factorial := by
    apply prod_distinct_dvd_factorial (i.toNat - 1) _ _
    · intro x hx y hy hxy
      obtain ⟨hxS, hxlt⟩ := Finset.mem_filter.mp hx
      obtain ⟨hyS, hylt⟩ := Finset.mem_filter.mp hy
      omega
    · intro x hx
      obtain ⟨hxS, hxlt⟩ := Finset.mem_filter.mp hx
      obtain ⟨⟨hx1, hxl⟩, hxi⟩ := hS x hxS
      omega
  have hB : ((S.filter fun j => ¬ j < i).prod fun j => (i - j).natAbs) ∣
      (l - i.toNat).factorial := by
    apply prod_distinct_dvd_factorial (l - i.toNat) _ _
    · intro x hx y hy hxy
      obtain ⟨hxS, hxlt⟩ := Finset.mem_filter.mp hx
      obtain ⟨hyS, hylt⟩ := Finset.mem_filter.mp hy
      omega
    · intro x hx
      obtain ⟨hxS, hxlt⟩ := Finset.mem_filter.mp hx
      obtain ⟨⟨hx1, hxl⟩, hxi⟩ := hS x hxS
      omega
  have h1 : ((S.filter fun j => j < i).prod fun j => (i - j).natAbs) *
      ((S.filter fun j => ¬ j < i).prod fun j => (i - j).natAbs) ∣
      (i.toNat - 1).factorial * (l - i.toNat).factorial := mul_dvd_mul hA hB
  have h2 : (i.toNat - 1).factorial * (l - i.toNat).factorial ∣
      ((i.toNat - 1) + (l - i.toNat)).factorial :=
    Nat.factorial_mul_factorial_dvd_factorial_add _ _
  have h3 : (i.toNat - 1) + (l - i.toNat) = l - 1 := by omega
  have h4 : (l - 1).factorial ∣ l.factorial :=
    Nat.factorial_dvd_factorial (by omega)
  rw [h3] at h2
  exact (h1.trans h2).trans h4

/-- Skipping the entry equal to `i` inside the fold is the fold over the
filtered list. -/
theorem foldl_skip_eq_filter (i : ℤ) (f : ℤ → ℤ → ℤ) :
    ∀ (js : List ℤ) (a : ℤ),
      js.foldl (fun acc j => if j ≠ i then f acc j else acc) a =
        (js.filter fun j => j ≠ i).foldl f a := by
  intro js
  induction js with
  | nil => intro a; rfl
  | cons j js ih =>
    intro a
    rw [List.foldl_cons, List.filter_cons]
    by_cases h : j ≠ i
    · rw [if_pos h, if_pos (by simpa using h), List.foldl_cons]
      exact ih (f a j)
    · rw [if_neg h, if_neg (by simpa using h)]
      exact ih a

theorem foldlE_skip_eq_filter (i : ℤ) (f : ℤ → ℤ → Option ℤ) :
    ∀ (js : List ℤ) (a : Option ℤ),
      js.foldl (fun acc j => acc.bind fun lam =>
        if j ≠ i then f lam j else some lam) a =
        (js.filter fun j => j ≠ i).foldl
          (fun acc j => acc.bind fun lam => f lam j) a := by
  intro js
  induction js with
  | nil => intro a; rfl
  | cons j js ih =>
    intro a
    rw [List.foldl_cons, List.filter_cons]
    by_cases h : j ≠ i
    · have hbody : (fun lam => if j ≠ i then f lam j else some lam) =
          fun lam => f lam j := by
        funext lam
        rw [if_pos h]
      rw [hbody, if_pos (by simpa using h), List.foldl_cons]
      exact ih _
    · have hbody : (fun lam => if j ≠ i then f lam j else some lam) = some := by
        funext lam
        rw [if_neg h]
      have hid : a.bind some = a := by cases a <;> rfl
      rw [hbody, hid, if_neg (by simpa using h)]
      exact ih a

/-- Invariant of the Lagrange iteration: starting from an accumulator
satisfying `acc · ∏_{done}(i-j) = l! · ∏_{done}(-j)`, every further step
divides exactly, and the final value satisfies the same identity over
the enlarged set. -/
theorem lambdaFold_exact_invariant (l : ℕ) (i : ℤ) (hi1 : 1 ≤ i) (hil : i ≤ (l : ℤ)) :
    ∀ (js : List ℤ) (done : Finset ℤ) (acc : ℤ),
      (∀ j ∈ js, (1 ≤ j ∧ j ≤ (l : ℤ)) ∧ j ≠ i) →
      js.Nodup →
      (∀ j ∈ js, j ∉ done) →
      (∀ j ∈ done, (1 ≤ j ∧ j ≤ (l : ℤ)) ∧ j ≠ i) →
      acc * (done.prod fun j => i - j) = ((l.factorial : ℕ) : ℤ) * (done.prod fun j => -j) →
      (js.foldl (lambdaStep i) acc) * ((done ∪ js.toFinset).prod fun j => i - j) =
          ((l.factorial : ℕ) : ℤ) * ((done ∪ js.toFinset).prod fun j => -j) ∧
      js.foldl (fun acc j => acc.bind fun lam => lambdaStepExact i lam j) (some acc) =
          some (js.foldl (lambdaStep i) acc) := by
  intro js
  induction js with
  | nil =>
    intro done acc _ _ _ _ hinv
    simpa using hinv
  | cons j js ih =>
    intro done acc hmem hnodup hfresh hdone hinv
    obtain ⟨⟨hj1, hjl⟩, hji⟩ := hmem j (List.mem_cons_self j js)
    have hjdone : j ∉ done := hfresh j (List.mem_cons_self j js)
    have hdone' : ∀ j' ∈ insert j done, (1 ≤ j' ∧ j' ≤ (l : ℤ)) ∧ j' ≠ i := by
      intro j' hj'
      rcases Finset.mem_insert.mp hj' with h | h
      · subst h; exact ⟨⟨hj1, hjl⟩, hji⟩
      · exact hdone j' h
    have hPdvd : ((insert j done).prod fun j' => i - j') ∣ ((l.factorial : ℕ) : ℤ) :=
      prod_sub_dvd_factorial l i (insert j done) hi1 hil hdone'
    obtain ⟨e, he⟩ := hPdvd
    have hprodinsert : ((insert j done).prod fun j' => i - j') =
        (i - j) * done.prod fun j' => i - j' := Finset.prod_insert hjdone
    have hQinsert : ((insert j done).prod fun j' => -j') =
        (-j) * done.prod fun j' => -j' := Finset.prod_insert hjdone
    have hPne : (done.prod fun j' => i - j') ≠ 0 := by
      apply Finset.prod_ne_zero_iff.mpr
      intro j' hj'
      have := (hdone j' hj').2
      omega
    set P := done.prod fun j' => i - j' with hP
    set Q := done.prod fun j' => -j' with hQ
    have hacc : acc = (i - j) * (e * Q) := by
      have h0 : acc * P = ((i - j) * (e * Q)) * P := by
        rw [hinv, he, hprodinsert]
        ring
      exact mul_right_cancel₀ hPne h0
    have hdvd : (i - j) ∣ acc * -j := ⟨e * Q * -j, by rw [hacc]; ring⟩
    have hstep : lambdaStep i acc j = e * Q * -j := by
      unfold lambdaStep
      rw [hacc]
      have : (i - j) * (e * Q) * -j = (i - j) * (e * Q * -j) := by ring
      rw [this]
      exact Int.mul_ediv_cancel_left _ (by omega)
    have hinv' : (lambdaStep i acc j) * ((insert j done).prod fun j' => i - j') =
        ((l.factorial : ℕ) : ℤ) * ((insert j done).prod fun j' => -j') := by
      rw [hstep, hprodinsert, hQinsert, he, hprodinsert]
      ring
    have hmem' : ∀ j' ∈ js, (1 ≤ j' ∧ j' ≤ (l : ℤ)) ∧ j' ≠ i :=
      fun j' hj' => hmem j' (List.mem_cons_of_mem j hj')
    have hnodup' : js.Nodup := (List.nodup_cons.mp hnodup).2
    have hfresh' : ∀ j' ∈ js, j' ∉ insert j done := by
      intro j' hj'
      rw [Finset.mem_insert]
      push_neg
      constructor
      · intro hc
        subst hc
        exact (List.nodup_cons.mp hnodup).1 hj'
      · exact hfresh j' (List.mem_cons_of_mem j hj')
    obtain ⟨ihinv, ihexact⟩ :=
      ih (insert j done) (lambdaStep i acc j) hmem' hnodup' hfresh' hdone' hinv'
    have hsets : insert j done ∪ js.toFinset = done ∪ (j :: js).toFinset := by
      rw [List.toFinset_cons, Finset.insert_union, Finset.union_insert]
    constructor
    · rw [List.foldl_cons]
      rw [← hsets]
      exact ihinv
    · rw [List.foldl_cons, List.foldl_cons]
      have hstepE : (some acc).bind (fun lam => lambdaStepExact i lam j) =
          some (lambdaStep i acc j) := by
        show lambdaStepExact i acc j = _
        unfold lambdaStepExact lambdaStep
        rw [if_pos hdvd]
      rw [hstepE]
      exact ihexact

/-- A fold over shares that inspects only the `Id` fields is the fold
over the mapped id list. -/
theorem foldl_over_ids {β : Type} (g : β → ℤ → β) :
    ∀ (shares : List PartialDecryption) (a : β),
      shares.foldl (fun acc s => g acc s.Id) a = (shares.map (·.Id)).foldl g a := by
  intro shares
  induction shares with
  | nil => intro a; rfl
  | cons s rest ih =>
    intro a
    rw [List.foldl_cons, List.map_cons, List.foldl_cons]
    exact ih _

/-- **C4.** For every set of shares with pairwise distinct ids drawn
from `{1..l}` and every share in that set, the iterated
`lambda := lambda * (-j) / (i - j)` computation started at `Δ = l!` is
exact at every intermediate division (the exactness-checking variant
`computeLambdaExact` never fails and agrees with the source's
`computeLambda`), and the result equals the exact rational
`Δ·∏(-j) / ∏(i-j)`, stated multiplicatively. -/
theorem claimC4 (tk : ThresholdPublicKey) (share : PartialDecryption)
    (shares : List PartialDecryption) (l : ℕ)
    (hl : tk.TotalNumberOfDecryptionServers = l)
    (hmem : ∀ s ∈ shares, 1 ≤ s.Id ∧ s.Id ≤ (l : ℤ))
    (hshare : share ∈ shares)
    (hnodup : (shares.map (·.Id)).Nodup) :
    computeLambdaExact tk share shares = some (tk.computeLambda share shares) ∧
    tk.computeLambda share shares *
        (((shares.map (·.Id)).filter (fun j => j ≠ share.Id)).map
          (fun j => share.Id - j)).prod =
      ((l.factorial : ℕ) : ℤ) *
        (((shares.map (·.Id)).filter (fun j => j ≠ share.Id)).map (fun j => -j)).prod := by
  set i := share.Id with hidef
  obtain ⟨hi1, hil⟩ := hmem share hshare
  set js := (shares.map (·.Id)).filter (fun j => j ≠ i) with hjs
  have hjsnodup : js.Nodup := hnodup.filter _
  have hjsmem : ∀ j ∈ js, (1 ≤ j ∧ j ≤ (l : ℤ)) ∧ j ≠ i := by
    intro j hj
    obtain ⟨hjmap, hjne⟩ := List.mem_filter.mp hj
    obtain ⟨s, hs, rfl⟩ := List.mem_map.mp hjmap
    exact ⟨hmem s hs, by simpa using hjne⟩
  have hdelta : (tk.delta : ℤ) = ((l.factorial : ℕ) : ℤ) := by
    unfold ThresholdPublicKey.delta
    rw [hl, Factorial_eq]
  -- rewrite both computations as folds over the filtered id list
  have hplain : tk.computeLambda share shares = js.foldl (lambdaStep i) (tk.delta : ℤ) :=
    (foldl_over_ids (fun lam j => if j ≠ i then lambdaStep i lam j else lam) shares
        (tk.delta : ℤ)).trans
      (foldl_skip_eq_filter i (lambdaStep i) (shares.map (·.Id)) (tk.delta : ℤ))
  have hexact : computeLambdaExact tk share shares =
      js.foldl (fun acc j => acc.bind fun lam => lambdaStepExact i lam j)
        (some (tk.delta : ℤ)) :=
    (foldl_over_ids (fun (accj : Option ℤ) (j : ℤ) => accj.bind fun lam =>
        if j ≠ i then lambdaStepExact i lam j else some lam) shares
        (some (tk.delta : ℤ))).trans
      (foldlE_skip_eq_filter i (lambdaStepExact i) (shares.map (·.Id))
        (some (tk.delta : ℤ)))
  obtain ⟨hinv, hex⟩ := lambdaFold_exact_invariant l i hi1 hil js ∅ (tk.delta : ℤ)
    hjsmem hjsnodup (by intro j _; exact Finset.not_mem_empty j)
    (by intro j h; exact absurd h (Finset.not_mem_empty j))
    (by rw [hdelta]; simp)
  rw [Finset.empty_union] at hinv
  have hlistprod1 : (js.toFinset.prod fun j => i - j) = (js.map fun j => i - j).prod :=
    List.prod_toFinset _ hjsnodup
  have hlistprod2 : (js.toFinset.prod fun j => -j) = (js.map fun j => -j).prod :=
    List.prod_toFinset _ hjsnodup
  constructor
  · rw [hexact, hplain, hex]
  · rw [hplain, ← hlistprod1, ← hlistprod2]
    exact hinv

/-- Witness for C4: `l = 3`, shares with ids `{1, 2, 3}`, `i = 2`:
every division is exact and `lambda * ((2-1)(2-3)) = 3! * ((-1)(-3))`. -/
theorem claimC4_witness :
    computeLambdaExact ⟨15, 3, 2, 4, []⟩ ⟨2, 0⟩ [⟨1, 0⟩, ⟨2, 0⟩, ⟨3, 0⟩] =
      some (ThresholdPublicKey.computeLambda ⟨15, 3, 2, 4, []⟩ ⟨2, 0⟩
        [⟨1, 0⟩, ⟨2, 0⟩, ⟨3, 0⟩]) ∧
    ThresholdPublicKey.computeLambda ⟨15, 3, 2, 4, []⟩ ⟨2, 0⟩
        [⟨1, 0⟩, ⟨2, 0⟩, ⟨3, 0⟩] *
      (((([⟨1, 0⟩, ⟨2, 0⟩, ⟨3, 0⟩] : List PartialDecryption).map (·.Id)).filter
          (fun j => j ≠ (⟨2, 0⟩ : PartialDecryption).Id)).map
        (fun j => (⟨2, 0⟩ : PartialDecryption).Id - j)).prod =
      ((Nat.factorial 3 : ℕ) : ℤ) *
      (((([⟨1, 0⟩, ⟨2, 0⟩, ⟨3, 0⟩] : List PartialDecryption).map (·.Id)).filter
          (fun j => j ≠ (⟨2, 0⟩ : PartialDecryption).Id)).map (fun j => -j)).prod :=
  claimC4 ⟨15, 3, 2, 4, []⟩ ⟨2, 0⟩ [⟨1, 0⟩, ⟨2, 0⟩, ⟨3, 0⟩] 3 rfl
    (by decide) (by decide) (by decide)

/-!
## SHA-256

The ZKP challenge is `SHA-256(a ∥ b ∥ c⁴ ∥ c_i²)` over the big-endian
magnitude bytes of the four integers (`big.Int.Bytes`: no sign byte, no
leading zeros), interpreted big-endian as an integer.  SHA-256 is
implemented here over `ℕ` with explicit `% 2^32` reductions so the
kernel can evaluate concrete hashes.
-/

/-- Big-endian magnitude bytes of `n`, `big.Int.Bytes` style: empty for
`0`, no leading zeros. -/
def bytesOfAux : ℕ → ℕ → List ℕ
  | 0, _ => []
  | fuel + 1, n => if n = 0 then [] else bytesOfAux fuel (n / 256) ++ [n % 256]

def bytesOf (n : ℕ) : List ℕ := bytesOfAux n n

def rotr32 (n x : ℕ) : ℕ := ((x >>> n) ||| (x <<< (32 - n))) % 2 ^ 32

def bsig0 (x : ℕ) : ℕ := (rotr32 2 x ^^^ rotr32 13 x) ^^^ rotr32 22 x

def bsig1 (x : ℕ) : ℕ := (rotr32 6 x ^^^ rotr32 11 x) ^^^ rotr32 25 x

def ssig0 (x : ℕ) : ℕ := (rotr32 7 x ^^^ rotr32 18 x) ^^^ (x >>> 3)

def ssig1 (x : ℕ) : ℕ := (rotr32 17 x ^^^ rotr32 19 x) ^^^ (x >>> 10)

def chFn (x y z : ℕ) : ℕ := (x &&& y) ^^^ ((x ^^^ 0xffffffff) &&& z)

def majFn (x y z : ℕ) : ℕ := ((x &&& y) ^^^ (x &&& z)) ^^^ (y &&& z)

def shaK : List ℕ :=
  [1116352408, 1899447441, 3049323471, 3921009573, 961987163, 1508970993,
   2453635748, 2870763221, 3624381080, 310598401, 607225278, 1426881987,
   1925078388, 2162078206, 2614888103, 3248222580, 3835390401, 4022224774,
   264347078, 604807628, 770255983, 1249150122, 1555081692, 1996064986,
   2554220882, 2821834349, 2952996808, 3210313671, 3336571891, 3584528711,
   113926993, 338241895, 666307205, 773529912, 1294757372, 1396182291,
   1695183700, 1986661051, 2177026350, 2456956037, 2730485921, 2820302411,
   3259730800, 3345764771, 3516065817, 3600352804, 4094571909, 275423344,
   430227734, 506948616, 659060556, 883997877, 958139571, 1322822218,
   1537002063, 1747873779, 1955562222, 2024104815, 2227730452, 2361852424,
   2428436474, 2756734187, 3204031479, 3329325298]

def shaInit : List ℕ :=
  [1779033703, 3144134277, 1013904242, 2773480762, 1359893119, 2600822924,
   528734635, 1541459225]

/-- `k`-byte big-endian encoding of `n`. -/
def toBytesBE (k n : ℕ) : List ℕ :=
  (List.range k).map fun i => (n >>> ((k - 1 - i) * 8)) % 256

def sha256Pad (msg : List ℕ) : List ℕ :=
  msg ++ [0x80] ++ List.replicate ((64 - (msg.length + 9) % 64) % 64) 0 ++
    toBytesBE 8 (8 * msg.length)

def toBlocksAux : ℕ → List ℕ → List (List ℕ)
  | 0, _ => []
  | _ + 1, [] => []
  | fuel + 1, l => l.take 64 :: toBlocksAux fuel (l.drop 64)

def toBlocks (l : List ℕ) : List (List ℕ) := toBlocksAux l.length l

def bytesToWord (bs : List ℕ) : ℕ := bs.foldl (fun acc b => acc * 256 + b) 0

def toWords (block : List ℕ) : List ℕ :=
  (List.range 16).map fun i => bytesToWord ((block.drop (4 * i)).take 4)

def extendW : ℕ → List ℕ → List ℕ
  | 0, ws => ws
  | fuel + 1, ws =>
    let n := ws.length
    let w := (ssig1 (ws.getD (n - 2) 0) + ws.getD (n - 7) 0 +
      ssig0 (ws.getD (n - 15) 0) + ws.getD (n - 16) 0) % 2 ^ 32
    extendW fuel (ws ++ [w])

structure Sha256State where
  sa : ℕ
  sb : ℕ
  sc : ℕ
  sd : ℕ
  se : ℕ
  sf : ℕ
  sg : ℕ
  sh : ℕ

def shaRound (st : Sha256State) (kw : ℕ × ℕ) : Sha256State :=
  let t1 := (st.sh + bsig1 st.se + chFn st.se st.sf st.sg + kw.1 + kw.2) % 2 ^ 32
  let t2 := (bsig0 st.sa + majFn st.sa st.sb st.sc) % 2 ^ 32
  { sa := (t1 + t2) % 2 ^ 32, sb := st.sa, sc := st.sb, sd := st.sc,
    se := (st.sd + t1) % 2 ^ 32, sf := st.se, sg := st.sf, sh := st.sg }

def sha256Compress (hs : List ℕ) (block : List ℕ) : List ℕ :=
  let ws := extendW 48 (toWords block)
  let st0 : Sha256State :=
    ⟨hs.getD 0 0, hs.getD 1 0, hs.getD 2 0, hs.getD 3 0,
     hs.getD 4 0, hs.getD 5 0, hs.getD 6 0, hs.getD 7 0⟩
  let st := (shaK.zip ws).foldl shaRound st0
  [(hs.getD 0 0 + st.sa) % 2 ^ 32, (hs.getD 1 0 + st.sb) % 2 ^ 32,
   (hs.getD 2 0 + st.sc) % 2 ^ 32, (hs.getD 3 0 + st.sd) % 2 ^ 32,
   (hs.getD 4 0 + st.se) % 2 ^ 32, (hs.getD 5 0 + st.sf) % 2 ^ 32,
   (hs.getD 6 0 + st.sg) % 2 ^ 32, (hs.getD 7 0 + st.sh) % 2 ^ 32]

/-- SHA-256 of a byte list, returned as the big-endian integer of the
32-byte digest (`new(big.Int).SetBytes(hash.Sum(...))`). -/
def sha256Nat (msg : List ℕ) : ℕ :=
  ((toBlocks (sha256Pad msg)).foldl sha256Compress shaInit).foldl
    (fun acc w => acc * 2 ^ 32 + w) 0

/-- FIPS 180-2 test vector: SHA-256("abc"). -/
example : sha256Nat [0x61, 0x62, 0x63] =
    0xba7816bf8f01cfea414140de5dae2223b00361a396177a9cb410ff61f20015ad := by
  decide

/-!
## Partial-decryption ZKP
-/

structure PartialDecryptionZKP where
  Id : ℤ
  Decryption : ℤ
  Key : ThresholdPublicKey
  E : ℕ
  Z : ℕ
  C : ℕ
deriving DecidableEq

/-- `computeHash(a, b, c4, ci2)`: SHA-256 over the concatenated
big-endian magnitude bytes, read back as an integer. -/
def computeHash (a b c4 ci2 : ℕ) : ℕ :=
  sha256Nat (bytesOf a ++ bytesOf b ++ bytesOf c4 ++ bytesOf ci2)

/-- `a = (c⁴)^Z · ((c_i²)^E)⁻¹ mod N²`; `none` models the panic on a nil
`ModInverse`. -/
def PartialDecryptionZKP.verifyPart1 (pd : PartialDecryptionZKP) : Option ℕ :=
  let n2 := pd.Key.GetNSquare
  let c4 := pd.C ^ 4
  let decryption2 := (pd.Decryption ^ 2).toNat
  let a1 := powMod c4 pd.Z n2
  let a2 := powMod decryption2 pd.E n2
  (modInverse a2 n2).map fun a2inv => a1 * a2inv % n2

/-- `b = V^Z · (Vi[Id-1]^E)⁻¹ mod N²`.  The slice access `Vi[Id-1]` has
no bounds check in the source; an out-of-range `Id` panics, modelled by
the guarded lookup returning `none`. -/
def PartialDecryptionZKP.verifyPart2 (pd : PartialDecryptionZKP) : Option ℕ :=
  let n2 := pd.Key.GetNSquare
  (if pd.Id < 1 then none else pd.Key.Vi.get? (pd.Id - 1).toNat).bind fun vi =>
    let b1 := powMod pd.Key.V pd.Z n2
    let b2 := powMod vi pd.E n2
    (modInverse b2 n2).map fun b2inv => b1 * b2inv % n2

/-- `Verify`: recompute `a`, `b`, rehash, compare with `E`.  `none`
models a panic in either part. -/
def PartialDecryptionZKP.Verify (pd : PartialDecryptionZKP) : Option Bool :=
  pd.verifyPart1.bind fun a =>
    pd.verifyPart2.bind fun b =>
      some (pd.E == computeHash a b (pd.C ^ 4) ((pd.Decryption ^ 2).toNat))

def ThresholdSecretKey.computeZ (tsk : ThresholdSecretKey) (r e : ℕ) : ℕ :=
  r + e * tsk.delta * tsk.Share

/-- The prover: partial decryption plus Fiat–Shamir proof, with the
random exponent `r` (drawn from `[0, N²)` by the source) passed in. -/
def ThresholdSecretKey.DecryptAndProduceZKP (tsk : ThresholdSecretKey) (c r : ℕ) :
    PartialDecryptionZKP :=
  let n2 := tsk.GetNSquare
  let decryption := (tsk.Decrypt c).Decryption
  let c4 := c ^ 4
  let a := powMod c4 r n2
  let b := powMod tsk.V r n2
  let ci2 := (decryption ^ 2).toNat
  let e := computeHash a b c4 ci2
  { Id := tsk.Id, Decryption := decryption, Key := tsk.toThresholdPublicKey,
    C := c, E := e, Z := tsk.computeZ r e }

/-- **C10.** `verify()` reads `Vi[Id-1]` without a bounds check: for any
`Id` outside `{1..len(Vi)}` the lookup is out of bounds and `Verify` has
no result (a panic, `none`) rather than `false`; a boolean comes back
only for in-range ids. -/
theorem claimC10 (pd : PartialDecryptionZKP) :
    (pd.Id < 1 ∨ (pd.Key.Vi.length : ℤ) < pd.Id → pd.Verify = none) ∧
    (∀ b, pd.Verify = some b → 1 ≤ pd.Id ∧ pd.Id ≤ (pd.Key.Vi.length : ℤ)) := by
  have hpart2 : pd.Id < 1 ∨ (pd.Key.Vi.length : ℤ) < pd.Id → pd.verifyPart2 = none := by
    intro h
    unfold PartialDecryptionZKP.verifyPart2
    rcases h with h | h
    · rw [if_pos h]
      rfl
    · rw [if_neg (by omega)]
      have hnone : pd.Key.Vi.get? (pd.Id - 1).toNat = none := by
        rw [List.get?_eq_none]
        omega
      rw [hnone]
      rfl
  constructor
  · intro h
    unfold PartialDecryptionZKP.Verify
    rw [hpart2 h]
    cases pd.verifyPart1 <;> rfl
  · intro b hb
    by_contra hc
    push_neg at hc
    have hout : pd.Id < 1 ∨ (pd.Key.Vi.length : ℤ) < pd.Id := by
      by_cases h1 : 1 ≤ pd.Id
      · right; exact hc h1
      · left; omega
    have : pd.Verify = none := by
      unfold PartialDecryptionZKP.Verify
      rw [hpart2 hout]
      cases pd.verifyPart1 <;> rfl
    rw [this] at hb
    exact Option.noConfusion hb

/-- Witness for C10: `Id = 0` and `Id = 5` against a two-entry `Vi` both
panic (no boolean result). -/
theorem claimC10_witness :
    PartialDecryptionZKP.Verify ⟨0, 3, ⟨15, 2, 2, 4, [46, 1]⟩, 9, 9, 7⟩ = none ∧
    PartialDecryptionZKP.Verify ⟨5, 3, ⟨15, 2, 2, 4, [46, 1]⟩, 9, 9, 7⟩ = none ∧
    PartialDecryptionZKP.Verify ⟨-2, 3, ⟨15, 2, 2, 4, [46, 1]⟩, 9, 9, 7⟩ = none :=
  ⟨(claimC10 ⟨0, 3, ⟨15, 2, 2, 4, [46, 1]⟩, 9, 9, 7⟩).1 (by left; decide),
   (claimC10 ⟨5, 3, ⟨15, 2, 2, 4, [46, 1]⟩, 9, 9, 7⟩).1 (by right; decide),
   (claimC10 ⟨-2, 3, ⟨15, 2, 2, 4, [46, 1]⟩, 9, 9, 7⟩).1 (by left; decide)⟩

/-!
### C3: honest proofs verify; tampering
-/

theorem coprime_of_modEq (a b n : ℕ) (h : a ≡ b [MOD n]) (hb : Nat.Coprime b n) :
    Nat.Coprime a n := by
  have h1 : Nat.gcd n a = Nat.gcd n b := by
    rw [Nat.gcd_rec n a, Nat.gcd_rec n b, h]
  unfold Nat.Coprime at hb ⊢
  rw [Nat.gcd_comm a n, h1, Nat.gcd_comm n b]
  exact hb

/-- The single verification equation shared by both halves of `Verify`:
if `y ≡ g^k (mod N²)` and `Z = r + E·k` with `g` invertible, then
`g^Z · (y^E)⁻¹ mod N²` exists and equals `g^r mod N²`. -/
theorem verify_part_core (n2 g y r E Z k : ℕ) (hn2 : 2 ≤ n2)
    (hg : Nat.Coprime g n2) (hy : y ≡ g ^ k [MOD n2]) (hZ : Z = r + E * k) :
    (modInverse (powMod y E n2) n2).map (fun inv => powMod g Z n2 * inv % n2) =
      some (powMod g r n2) := by
  have hyco : Nat.Coprime (powMod y E n2) n2 := by
    rw [powMod_eq]
    exact coprime_of_modEq _ ((g ^ k) ^ E) _
      ((Nat.mod_modEq _ _).trans (hy.pow E)) ((hg.pow_left k).pow_left E)
  obtain ⟨inv, hinv⟩ :=
    Option.isSome_iff_exists.mp (modInverse_isSome _ _ (by omega) hyco)
  obtain ⟨hmul, _, _⟩ := modInverse_spec _ _ _ hinv
  rw [hinv, Option.map_some']
  congr 1
  have h2 : powMod y E n2 * inv ≡ 1 [MOD n2] := hmul
  have h1 : powMod g Z n2 * inv ≡ g ^ r * (powMod y E n2 * inv) [MOD n2] := by
    calc powMod g Z n2 * inv
        ≡ g ^ Z * inv [MOD n2] := by
          rw [powMod_eq]
          exact (Nat.mod_modEq _ _).mul_right inv
      _ = g ^ r * ((g ^ k) ^ E * inv) := by
          rw [hZ, pow_add, ← pow_mul, Nat.mul_comm E k, mul_assoc]
      _ ≡ g ^ r * (y ^ E * inv) [MOD n2] :=
          (((hy.pow E).symm.mul_right inv).mul_left _)
      _ ≡ g ^ r * (powMod y E n2 * inv) [MOD n2] := by
          rw [powMod_eq]
          exact (((Nat.mod_modEq (y ^ E) n2).symm).mul_right inv).mul_left _
  have h3 : powMod g Z n2 * inv ≡ g ^ r [MOD n2] := by
    calc powMod g Z n2 * inv
        ≡ g ^ r * (powMod y E n2 * inv) [MOD n2] := h1
      _ ≡ g ^ r * 1 [MOD n2] := h2.mul_left _
      _ = g ^ r := by ring
  have h4 : (powMod g Z n2 * inv) % n2 = g ^ r % n2 := h3
  rw [h4, powMod_eq]

/-- A concrete honestly-generated threshold secret key: `N = 15`,
`l = 2` (`Δ = 2`), `t = 2`, `V = 4`, share `s = 3`, id `1`, with its own
verification key `V₁ = V^(s·Δ) mod N² = 46`. -/
def c3Tsk : ThresholdSecretKey := ⟨15, 2, 2, 4, [46, 0], 1, 3⟩

/-- The honest proof produced from `c3Tsk` on ciphertext `2` with
prover randomness `7`. -/
def c3Proof : PartialDecryptionZKP := c3Tsk.DecryptAndProduceZKP 2 7

set_option maxRecDepth 40000 in
/-- **C3 (amended).** Honestly produced partial-decryption ZKPs verify
(for any key with `c`, `V` invertible mod `N²` whose `Vi[Id-1]` entry is
the honest `V^(s·Δ) mod N²`).  Tampering with `e`, `z` or `c_i` in a way
that changes the verification equations makes `verify()` return `false`
(demonstrated at the concrete instance by incrementing each field), but
verification depends on `c_i` only through `c_i²`, so replacing `c_i` by
`-c_i` is a change of the field that still verifies. -/
theorem claimC3 :
    (∀ (tsk : ThresholdSecretKey) (c r : ℕ),
      2 ≤ tsk.N →
      Nat.Coprime c (tsk.N * tsk.N) →
      Nat.Coprime tsk.V (tsk.N * tsk.N) →
      (if tsk.Id < 1 then none else tsk.Vi.get? (tsk.Id - 1).toNat) =
        some (powMod tsk.V (tsk.Share * tsk.delta) (tsk.N * tsk.N)) →
      (tsk.DecryptAndProduceZKP c r).Verify = some true) ∧
    ({c3Proof with E := c3Proof.E + 1}).Verify = some false ∧
    ({c3Proof with Z := c3Proof.Z + 1}).Verify = some false ∧
    ({c3Proof with Decryption := c3Proof.Decryption + 1}).Verify = some false ∧
    c3Proof.Decryption ≠ -c3Proof.Decryption ∧
    ({c3Proof with Decryption := -c3Proof.Decryption}).Verify = some true := by
  refine ⟨?_, by decide, by decide, by decide, by decide, by decide⟩
  intro tsk c r hN hc hV hvi
  set n2 := tsk.N * tsk.N with hn2def
  have hn2 : 2 ≤ n2 := by
    calc 2 ≤ tsk.N := hN
      _ ≤ tsk.N * tsk.N := Nat.le_mul_of_pos_left _ (by omega)
  set pd := tsk.DecryptAndProduceZKP c r with hpd
  set ci := powMod c (tsk.Share * (2 * tsk.delta)) n2 with hci
  have hdt : ((((ci : ℕ) : ℤ)) ^ 2).toNat = ci ^ 2 := by
    have h0 : (((ci : ℕ) : ℤ)) ^ 2 = ((ci ^ 2 : ℕ) : ℤ) := by push_cast; ring
    rw [h0]
    exact Int.toNat_natCast _
  have hZ' : pd.Z = r + pd.E * (tsk.delta * tsk.Share) := by
    have h0 : pd.Z = r + pd.E * tsk.delta * tsk.Share := rfl
    rw [h0, mul_assoc]
  have hpart1 : pd.verifyPart1 = some (powMod (c ^ 4) r n2) := by
    show (modInverse (powMod (((((ci : ℕ) : ℤ)) ^ 2).toNat) pd.E n2) n2).map
      (fun a2inv => powMod (c ^ 4) pd.Z n2 * a2inv % n2) = some (powMod (c ^ 4) r n2)
    rw [hdt]
    apply verify_part_core n2 (c ^ 4) (ci ^ 2) r pd.E pd.Z (tsk.delta * tsk.Share)
      hn2 (hc.pow_left 4) ?_ hZ'
    calc ci ^ 2
        ≡ (c ^ (tsk.Share * (2 * tsk.delta))) ^ 2 [MOD n2] := by
          rw [hci, powMod_eq]
          exact (Nat.mod_modEq _ _).pow 2
      _ = (c ^ 4) ^ (tsk.delta * tsk.Share) := by
          rw [← pow_mul, ← pow_mul]
          congr 1
          ring
  have hpart2 : pd.verifyPart2 = some (powMod tsk.V r n2) := by
    show ((if tsk.Id < 1 then none else tsk.Vi.get? (tsk.Id - 1).toNat).bind fun vi =>
      (modInverse (powMod vi pd.E n2) n2).map
        (fun b2inv => powMod tsk.V pd.Z n2 * b2inv % n2)) = some (powMod tsk.V r n2)
    rw [hvi, Option.some_bind]
    apply verify_part_core n2 tsk.V _ r pd.E pd.Z (tsk.delta * tsk.Share)
      hn2 hV ?_ hZ'
    rw [powMod_eq, Nat.mul_comm tsk.Share tsk.delta]
    exact Nat.mod_modEq _ _
  show pd.verifyPart1.bind (fun a => pd.verifyPart2.bind fun b =>
    some (pd.E == computeHash a b (pd.C ^ 4) ((pd.Decryption ^ 2).toNat))) = some true
  rw [hpart1, hpart2, Option.some_bind, Option.some_bind]
  have hE : pd.E = computeHash (powMod (c ^ 4) r n2) (powMod tsk.V r n2)
      (pd.C ^ 4) ((pd.Decryption ^ 2).toNat) := rfl
  rw [← hE]
  simp

set_option maxRecDepth 40000 in
/-- Witness for C3's universal half, at the concrete honest key
`c3Tsk` (checking the coprimality and verification-key hypotheses by
computation), together with the resulting `Verify = some true`. -/
theorem claimC3_witness : (c3Tsk.DecryptAndProduceZKP 2 7).Verify = some true :=
  claimC3.1 c3Tsk 2 7 (by decide) (by decide) (by decide) (by decide)

set_option maxRecDepth 40000 in
/-- **C3, counterexample to the claim as stated.**  The claim says
changing any one of `e`, `z`, `c_i` makes `verify()` return `false`; but
the honest concrete proof `c3Proof` with its `c_i` field negated — a
changed field — still verifies, because `Verify` uses `c_i` only through
`c_i²` (and `big.Int` exponentiation of a negated base mod `N²`). -/
theorem claimC3_counterexample :
    c3Proof.Verify = some true ∧
    c3Proof.Decryption ≠ -c3Proof.Decryption ∧
    ({c3Proof with Decryption := -c3Proof.Decryption}).Verify = some true :=
  ⟨by decide, by decide, by decide⟩

/-!
## Safe-prime generator

The concurrent search of `GenerateSafePrime` is embedded as a sequence
of random draws (`draws`), one per candidate attempt of
`runGenPrimeRoutine`; the first draw whose attempt succeeds wins, and an
exhausted list plays the role of the timeout.  The probable-prime test
(`big.Int.ProbablyPrime`, an external collaborator per the spec) is an
abstract boolean oracle `probablyPrime n rounds`.
-/

def smallPrimes : List ℕ := [3, 5, 7, 11, 13, 17, 19, 23, 29, 31, 37, 41, 43, 47, 53]

def smallPrimesProduct : ℕ := 16294579238595022365

def isPrimeCandidate (number : ℕ) : Bool :=
  let m := number % smallPrimesProduct
  smallPrimes.all fun prime => !(m % prime == 0 && m != prime)

/-- The inner sieve test of the delta loop: a hit means
`continue NextDelta`. -/
def sieveHit (qBitLen m : ℕ) : Bool :=
  smallPrimes.any fun prime => m % prime == 0 && (qBitLen > 6 || m != prime)

/-- The byte fiddling performed on the random draw: clear the bits above
`qBitLen`, set the top two bits (or handle the `b = 1` case), make the
value odd. -/
def prepareBytes (qBitLen : ℕ) (bytes : List ℕ) : List ℕ :=
  let b := if qBitLen % 8 == 0 then 8 else qBitLen % 8
  let bytes1 :=
    match bytes with
    | [] => []
    | b0 :: rest => (b0 &&& (1 <<< b - 1)) :: rest
  let bytes2 :=
    if b ≥ 2 then
      match bytes1 with
      | [] => []
      | b0 :: rest => (b0 ||| (3 <<< (b - 2))) :: rest
    else
      match bytes1 with
      | [] => []
      | b0 :: rest =>
        (b0 ||| 1) ::
          (match rest with
           | [] => []
           | r0 :: rr => (r0 ||| 0x80) :: rr)
  match bytes2.reverse with
  | [] => []
  | last :: front => ((last ||| 1) :: front).reverse

def bytesToNat (l : List ℕ) : ℕ := l.foldl (fun acc byte => acc * 256 + byte) 0

/-- The `NextDelta` loop.  State `(q, p)` mirrors the mutable `q` and
`p` of the source (`p` starts at `0`, the fresh `big.Int`); the first
component of the result records whether the loop ended in its success
`break` (`true`) or by exhausting the delta budget (`false`). -/
def deltaLoop (mod0 qBitLen : ℕ) : ℕ → ℕ → ℕ → ℕ → Bool × ℕ × ℕ
  | 0, _, q, p => (false, q, p)
  | fuel + 1, delta, q, p =>
    let m := mod0 + delta
    if sieveHit qBitLen m then deltaLoop mod0 qBitLen fuel (delta + 2) q p
    else
      let q1 := if delta > 0 then q + delta else q
      if q1 % 3 = 1 then deltaLoop mod0 qBitLen fuel (delta + 2) q1 p
      else
        let p1 := 2 * q1 + 1
        if !isPrimeCandidate p1 then deltaLoop mod0 qBitLen fuel (delta + 2) q1 p1
        else (true, q1, p1)

/-- Binary logarithm, fuel-based so it evaluates in the kernel. -/
def log2Fuel : ℕ → ℕ → ℕ
  | 0, _ => 0
  | fuel + 1, n => if 2 ≤ n then log2Fuel fuel (n / 2) + 1 else 0

/-- `BitLen` of a `big.Int`. -/
def bitLen (n : ℕ) : ℕ := if n = 0 then 0 else log2Fuel n n + 1

def isPocklingtonCriterionSatisfied (p : ℕ) : Bool := powMod 2 (p - 1) p == 1

/-- One candidate attempt of `runGenPrimeRoutine` on a fresh random
draw: the delta budget is `delta = 0, 2, ..., < 2^20`, i.e. `2^19`
iterations, then the final acceptance test. -/
def runGenPrimeRoutineStep (pBitLen : ℕ) (bytes : List ℕ)
    (probablyPrime : ℕ → ℕ → Bool) : Option (ℕ × ℕ) :=
  let qBitLen := pBitLen - 1
  let q0 := bytesToNat (prepareBytes qBitLen bytes)
  let mod0 := q0 % smallPrimesProduct
  let res := deltaLoop mod0 qBitLen (2 ^ 19) 0 q0 0
  if probablyPrime res.2.1 20 && isPocklingtonCriterionSatisfied res.2.2 &&
      (bitLen res.2.1 == qBitLen)
  then some (res.2.2, res.2.1) else none

def GenerateSafePrime (bitLenArg _concurrencyLevel : ℕ) (draws : List (List ℕ))
    (probablyPrime : ℕ → ℕ → Bool) : Except String (ℕ × ℕ) :=
  if bitLenArg < 6 then .error "safe prime size must be at least 6 bits"
  else
    match draws.findSome?
        (fun bytes => runGenPrimeRoutineStep bitLenArg bytes probablyPrime) with
    | some pq => .ok pq
    | none => .error "generator timed out"

theorem deltaLoop_break (mod0 qBitLen : ℕ) :
    ∀ (fuel delta q p : ℕ),
      (deltaLoop mod0 qBitLen fuel delta q p).1 = true →
      (deltaLoop mod0 qBitLen fuel delta q p).2.2 =
        2 * (deltaLoop mod0 qBitLen fuel delta q p).2.1 + 1 := by
  intro fuel
  induction fuel with
  | zero =>
    intro delta q p h
    simp [deltaLoop] at h
  | succ fuel ih =>
    intro delta q p h
    rw [deltaLoop] at h ⊢
    by_cases h1 : sieveHit qBitLen (mod0 + delta)
    · rw [if_pos h1] at h ⊢
      exact ih _ _ _ h
    · rw [if_neg h1] at h ⊢
      by_cases h2 : (if delta > 0 then q + delta else q) % 3 = 1
      · rw [if_pos h2] at h ⊢
        exact ih _ _ _ h
      · rw [if_neg h2] at h ⊢
        by_cases h3 : !isPrimeCandidate (2 * (if delta > 0 then q + delta else q) + 1)
        · rw [if_pos h3] at h ⊢
          exact ih _ _ _ h
        · rw [if_neg h3] at h ⊢

theorem log2Fuel_bounds : ∀ (fuel n : ℕ), 1 ≤ n → n ≤ fuel →
    2 ^ log2Fuel fuel n ≤ n ∧ n < 2 ^ (log2Fuel fuel n + 1) := by
  intro fuel
  induction fuel with
  | zero => intro n h1 h2; omega
  | succ fuel ih =>
    intro n h1 h2
    rw [log2Fuel]
    by_cases h : 2 ≤ n
    · rw [if_pos h]
      obtain ⟨ha, hb⟩ := ih (n / 2) (by omega) (by omega)
      constructor
      · rw [pow_succ]
        omega
      · rw [pow_succ] at hb
        rw [pow_succ, pow_succ]
        omega
    · rw [if_neg h]
      refine ⟨by simpa using h1, ?_⟩
      have hlt : n < 2 := by omega
      simpa using hlt

theorem bitLen_unique (n k : ℕ) (h1 : 2 ^ k ≤ n) (h2 : n < 2 ^ (k + 1)) :
    bitLen n = k + 1 := by
  have h0 : (1 : ℕ) ≤ 2 ^ k := Nat.one_le_two_pow
  have hn : n ≠ 0 := by omega
  unfold bitLen
  rw [if_neg hn]
  obtain ⟨ha, hb⟩ := log2Fuel_bounds n n (by omega) (le_refl n)
  rcases lt_trichotomy (log2Fuel n n) k with h | h | h
  · exfalso
    have hc : (2 : ℕ) ^ (log2Fuel n n + 1) ≤ 2 ^ k :=
      Nat.pow_le_pow_right (by norm_num) (by omega)
    omega
  · omega
  · exfalso
    have hc : (2 : ℕ) ^ (k + 1) ≤ 2 ^ log2Fuel n n :=
      Nat.pow_le_pow_right (by norm_num) (by omega)
    omega

theorem bitLen_two_mul_add_one (q : ℕ) (hq : q ≠ 0) :
    bitLen (2 * q + 1) = bitLen q + 1 := by
  have hbq : bitLen q = log2Fuel q q + 1 := by
    unfold bitLen
    rw [if_neg hq]
  obtain ⟨ha, hb⟩ := log2Fuel_bounds q q (by omega) (le_refl q)
  have h1 : 2 ^ (log2Fuel q q + 1) ≤ 2 * q + 1 := by
    rw [pow_succ]
    omega
  have h2 : 2 * q + 1 < 2 ^ (log2Fuel q q + 1 + 1) := by
    rw [pow_succ] at hb
    rw [pow_succ, pow_succ]
    omega
  rw [bitLen_unique (2 * q + 1) (log2Fuel q q + 1) h1 h2, hbq]

/-- Acceptance facts of one routine attempt: the final check guarantees
the probable-prime call on `q`, the Pocklington base-2 check on `p` and
`q`'s exact bit length; when the delta loop ended in its success break,
additionally `p = 2q + 1` and `p` has exactly `pBitLen` bits. -/
theorem routineStep_some (pBitLen : ℕ) (bytes : List ℕ) (pp : ℕ → ℕ → Bool)
    (p q : ℕ) (hbl : 6 ≤ pBitLen)
    (h : runGenPrimeRoutineStep pBitLen bytes pp = some (p, q)) :
    pp q 20 = true ∧ isPocklingtonCriterionSatisfied p = true ∧
    bitLen q = pBitLen - 1 ∧
    ((deltaLoop (bytesToNat (prepareBytes (pBitLen - 1) bytes) % smallPrimesProduct)
        (pBitLen - 1) (2 ^ 19) 0 (bytesToNat (prepareBytes (pBitLen - 1) bytes)) 0).1 =
          true →
      p = 2 * q + 1 ∧ bitLen p = pBitLen) := by
  unfold runGenPrimeRoutineStep at h
  set res := deltaLoop (bytesToNat (prepareBytes (pBitLen - 1) bytes) % smallPrimesProduct)
    (pBitLen - 1) (2 ^ 19) 0 (bytesToNat (prepareBytes (pBitLen - 1) bytes)) 0 with hres
  by_cases hcond : (pp res.2.1 20 && isPocklingtonCriterionSatisfied res.2.2 &&
      (bitLen res.2.1 == pBitLen - 1)) = true
  · rw [if_pos hcond] at h
    obtain ⟨hp, hq⟩ : res.2.2 = p ∧ res.2.1 = q := by
      have := Option.some_inj.mp h
      exact ⟨congrArg Prod.fst this, congrArg Prod.snd this⟩
    simp only [Bool.and_eq_true, beq_iff_eq] at hcond
    obtain ⟨⟨hcond1, hcond2⟩, hcond3⟩ := hcond
    rw [hq] at hcond1 hcond3
    rw [hp] at hcond2
    refine ⟨hcond1, hcond2, hcond3, ?_⟩
    intro hbreak
    have h2q1 := deltaLoop_break _ _ _ _ _ _ hbreak
    rw [← hres] at h2q1
    have hpq : p = 2 * q + 1 := by rw [← hp, ← hq]; exact h2q1
    refine ⟨hpq, ?_⟩
    have hqne : q ≠ 0 := by
      intro hc
      rw [hc] at hcond3
      unfold bitLen at hcond3
      simp at hcond3
      omega
    rw [hpq, bitLen_two_mul_add_one q hqne, hcond3]
    omega
  · rw [if_neg hcond] at h
    exact Option.noConfusion h

/-- **C5 (amended).** `GenerateSafePrime` rejects `bitLen < 6` with an
error; and whenever it returns a pair `(p, q)`, the accepting attempt
guarantees: `q` passed the 20-round probable-prime call, `p` passed the
Pocklington base-2 criterion `2^(p-1) ≡ 1 (mod p)` (the source never
runs the probable-prime test on `p`), `q` has exactly `bitLen - 1` bits,
and — when the candidate loop ended in its success break, which is the
case for every accepting attempt that did not exhaust its `2^20` delta
budget — `p = 2q + 1` with exactly `bitLen` bits. -/
theorem claimC5 (bitLenArg concurrencyLevel : ℕ) (draws : List (List ℕ))
    (pp : ℕ → ℕ → Bool) (p q : ℕ) :
    (bitLenArg < 6 →
      GenerateSafePrime bitLenArg concurrencyLevel draws pp =
        .error "safe prime size must be at least 6 bits") ∧
    (GenerateSafePrime bitLenArg concurrencyLevel draws pp = .ok (p, q) →
      pp q 20 = true ∧ isPocklingtonCriterionSatisfied p = true ∧
      bitLen q = bitLenArg - 1 ∧
      ∃ bytes ∈ draws,
        runGenPrimeRoutineStep bitLenArg bytes pp = some (p, q) ∧
        ((deltaLoop
            (bytesToNat (prepareBytes (bitLenArg - 1) bytes) % smallPrimesProduct)
            (bitLenArg - 1) (2 ^ 19) 0
            (bytesToNat (prepareBytes (bitLenArg - 1) bytes)) 0).1 = true →
          p = 2 * q + 1 ∧ bitLen p = bitLenArg)) := by
  constructor
  · intro hlt
    unfold GenerateSafePrime
    rw [if_pos hlt]
  · intro hok
    unfold GenerateSafePrime at hok
    by_cases hlt : bitLenArg < 6
    · rw [if_pos hlt] at hok
      exact Except.noConfusion hok
    · rw [if_neg hlt] at hok
      cases hfind : draws.findSome?
          (fun bytes => runGenPrimeRoutineStep bitLenArg bytes pp) with
      | none => rw [hfind] at hok; exact Except.noConfusion hok
      | some pq =>
        rw [hfind] at hok
        have hpq : pq = (p, q) := by
          have := Except.ok.inj hok
          exact this
        subst hpq
        obtain ⟨bytes, hmem, hstep⟩ := List.exists_of_findSome?_eq_some hfind
        obtain ⟨h1, h2, h3, h4⟩ :=
          routineStep_some bitLenArg bytes pp p q (by omega) hstep
        exact ⟨h1, h2, h3, bytes, hmem, hstep, h4⟩

/-- The adversarially-chosen probable-prime oracle used to separate what
the code checks from what C5 claims: it accepts exactly `29`. -/
def mrOracle29 : ℕ → ℕ → Bool := fun n _ => n == 29

/-- **C5, counterexample to the claim as stated.**  With the abstract
probable-prime tester `mrOracle29` (the code constrains the tester only
on `q`), the draw `[29]` at `bitLen = 6` makes `GenerateSafePrime`
return `(p, q) = (59, 29)`; the code never runs the tester on `p`, and
indeed `mrOracle29 59 20 = false`, refuting "both p and q pass
Miller–Rabin with at least 20 rounds". -/
theorem claimC5_counterexample :
    GenerateSafePrime 6 4 [[29]] mrOracle29 = .ok (59, 29) ∧
    mrOracle29 29 20 = true ∧
    mrOracle29 59 20 = false := by
  refine ⟨by rfl, rfl, rfl⟩

/-- Witness for C5: the rejection at `bitLen = 5` and the guarantees of
the accepting run on the draw `[29]` at `bitLen = 6`. -/
theorem claimC5_witness :
    GenerateSafePrime 5 4 [[29]] mrOracle29 =
      .error "safe prime size must be at least 6 bits" ∧
    (mrOracle29 29 20 = true ∧ isPocklingtonCriterionSatisfied 59 = true ∧
      bitLen 29 = 6 - 1 ∧
      ∃ bytes ∈ [[29]],
        runGenPrimeRoutineStep 6 bytes mrOracle29 = some (59, 29) ∧
        ((deltaLoop (bytesToNat (prepareBytes (6 - 1) bytes) % smallPrimesProduct)
            (6 - 1) (2 ^ 19) 0 (bytesToNat (prepareBytes (6 - 1) bytes)) 0).1 = true →
          59 = 2 * 29 + 1 ∧ bitLen 59 = 6)) :=
  ⟨(claimC5 5 4 [[29]] mrOracle29 59 29).1 (by omega),
   (claimC5 6 4 [[29]] mrOracle29 59 29).2 (by rfl)⟩

/-!
### C2: correctness of threshold combining
-/

theorem powMod_lt (b e m : ℕ) (hm : 0 < m) : powMod b e m < m := by
  rw [powMod_eq]
  exact Nat.mod_lt _ hm

theorem getD_range_map {α : Type} (l i : ℕ) (G : ℕ → α) (d : α) (hi : i < l) :
    ((List.range l).map G).getD i d = G i := by
  rw [List.getD_eq_getElem?_getD, List.getElem?_map, List.getElem?_range hi]
  rfl

/-- The key records produced by the dealer's `Generate`: field values of
the `i`-th key, for some inverse `mInv` of `m = p1·q1` modulo `n = p·q`. -/
theorem generateKeys_fields (l t p p1 q q1 rv : ℕ) (coeffs : List ℕ)
    (keys : List ThresholdSecretKey)
    (h : GenerateKeys l t p p1 q q1 rv coeffs = some keys) :
    ∃ mInv, modInverse (p1 * q1) (p * q) = some mInv ∧
      keys.length = l ∧
      ∀ i, i < l →
        (keys.getD i default).N = p * q ∧
        (keys.getD i default).TotalNumberOfDecryptionServers = l ∧
        (keys.getD i default).Threshold = t ∧
        (keys.getD i default).Id = ((i + 1 : ℕ) : ℤ) ∧
        (keys.getD i default).Share =
          computeShare ((mInv * (p1 * q1)) :: coeffs) (p * q * (p1 * q1)) t i := by
  unfold GenerateKeys at h
  obtain ⟨mInv, hm, hkeys⟩ := Option.map_eq_some'.mp h
  refine ⟨mInv, hm, ?_, ?_⟩
  · rw [← hkeys]
    simp
  · intro i hi
    rw [← hkeys, getD_range_map _ _ _ _ hi]
    refine ⟨rfl, rfl, rfl, rfl, ?_⟩
    show ((List.range l).map fun i2 =>
        computeShare ((mInv * (p1 * q1)) :: coeffs) (p * q * (p1 * q1)) t i2).getD i 0 = _
    rw [getD_range_map _ _ _ _ hi]

/-- `exp` applied to a `powMod`-produced base coprime to the modulus
always succeeds (also for negative exponents, where the modular inverse
exists), stays below the modulus, and equals the corresponding integer
power of the unit of the base in `ZMod`. -/
theorem exp_powMod (tk : ThresholdPublicKey) (ns c e : ℕ) (b : ℤ) (hns : 1 < ns)
    (hc : Nat.Coprime c ns) :
    ∃ w : ℕ, tk.exp ((powMod c e ns : ℕ) : ℤ) b ns = some w ∧ w < ns ∧
      (w : ZMod ns) =
        ((ZMod.unitOfCoprime c hc ^ ((e : ℤ) * b) : (ZMod ns)ˣ) : ZMod ns) := by
  have hns0 : 0 < ns := by omega
  set u : (ZMod ns)ˣ := ZMod.unitOfCoprime c hc with hu
  set x := powMod c e ns with hx
  have hxlt : x < ns := powMod_lt _ _ _ hns0
  have hared : (((x : ℕ) : ℤ) % (ns : ℤ)).toNat = x := by
    rw [Int.emod_eq_of_lt (by positivity) (by exact_mod_cast hxlt)]
    exact Int.toNat_natCast x
  have hxcast : ((x : ℕ) : ZMod ns) = ((u : ZMod ns)) ^ e := by
    rw [hx, powMod_eq, ZMod.natCast_mod, Nat.cast_pow, ZMod.coe_unitOfCoprime]
  unfold ThresholdPublicKey.exp
  by_cases hb : b < 0
  · rw [if_pos hb]
    -- the power of x taken before inverting
    set k := (-b).toNat with hk
    set y := powMod x k ns with hy
    have hymod : y ≡ c ^ (e * k) [MOD ns] := by
      calc y = x ^ k % ns := by rw [hy, powMod_eq]
        _ ≡ x ^ k [MOD ns] := Nat.mod_modEq _ _
        _ ≡ (c ^ e) ^ k [MOD ns] := by
            have hxm : x ≡ c ^ e [MOD ns] := by
              rw [hx, powMod_eq]
              exact Nat.mod_modEq _ _
            exact hxm.pow k
        _ = c ^ (e * k) := by rw [← pow_mul]
    have hyco : Nat.Coprime y ns :=
      coprime_of_modEq _ _ _ hymod (Nat.Coprime.pow_left _ hc)
    obtain ⟨w, hw⟩ :=
      Option.isSome_iff_exists.mp (modInverse_isSome y ns (by omega) hyco)
    obtain ⟨hmul, hwlt, _⟩ := modInverse_spec y ns w hw
    refine ⟨w, ?_, hwlt, ?_⟩
    · rw [hared, ← hy, hw]
    · -- w is the inverse of u^(e·k) in ZMod ns
      have hycast : ((y : ℕ) : ZMod ns) = ((u : ZMod ns)) ^ (e * k) := by
        have := (ZMod.natCast_eq_natCast_iff _ _ _).mpr hymod
        rw [this, Nat.cast_pow, ZMod.coe_unitOfCoprime]
      have hone : ((y : ℕ) : ZMod ns) * ((w : ℕ) : ZMod ns) = 1 := by
        have hcast := congrArg (fun z : ℕ => (z : ZMod ns)) hmul
        simp only [Nat.cast_mul] at hcast
        rw [ZMod.natCast_mod, ZMod.natCast_mod] at hcast
        simpa using hcast
      have hexp : (e : ℤ) * b = -((e * k : ℕ) : ℤ) := by
        have hbk : ((k : ℕ) : ℤ) = -b := Int.toNat_of_nonneg (by omega)
        push_cast
        rw [hbk]
        ring
      rw [hexp, zpow_neg, zpow_natCast]
      -- from (u^(e*k)).val * w = 1 conclude w = ((u^(e*k))⁻¹).val
      have hval : ((u ^ (e * k) : (ZMod ns)ˣ) : ZMod ns) * ((w : ℕ) : ZMod ns) = 1 := by
        rw [Units.val_pow_eq_pow_val, ← hycast]
        exact hone
      calc ((w : ℕ) : ZMod ns)
          = (((u ^ (e * k))⁻¹ : (ZMod ns)ˣ) : ZMod ns) *
              (((u ^ (e * k) : (ZMod ns)ˣ) : ZMod ns) * ((w : ℕ) : ZMod ns)) := by
            rw [← mul_assoc, Units.inv_mul, one_mul]
        _ = (((u ^ (e * k))⁻¹ : (ZMod ns)ˣ) : ZMod ns) := by rw [hval, mul_one]
  · rw [if_neg hb]
    refine ⟨powMod x b.toNat ns, by rw [hared], powMod_lt _ _ _ hns0, ?_⟩
    have hbn : (e : ℤ) * b = ((e * b.toNat : ℕ) : ℤ) := by
      have : ((b.toNat : ℕ) : ℤ) = b := Int.toNat_of_nonneg (by omega)
      push_cast
      rw [this]
    rw [hbn, zpow_natCast, Units.val_pow_eq_pow_val]
    rw [powMod_eq, ZMod.natCast_mod, Nat.cast_pow, hxcast, ← pow_mul]

/-- One `updateCprime` step on an honest partial decryption multiplies
the accumulator by the `2·lambda`-th power of the unit of the
ciphertext. -/
theorem updateCprime_eq (tk : ThresholdPublicKey) (ns : ℕ)
    (hnseq : tk.GetNSquare = ns) (c e : ℕ) (lam : ℤ) (cp : ℕ)
    (hns : 1 < ns) (hc : Nat.Coprime c ns)
    (sh : PartialDecryption)
    (hsh : sh.Decryption = ((powMod c e ns : ℕ) : ℤ)) :
    ∃ cp' : ℕ, tk.updateCprime cp lam sh = some cp' ∧ cp' < ns ∧
      (cp' : ZMod ns) = (cp : ZMod ns) *
        ((ZMod.unitOfCoprime c hc ^ ((e : ℤ) * (2 * lam)) :
          (ZMod ns)ˣ) : ZMod ns) := by
  obtain ⟨w, hw, hwlt, hwcast⟩ := exp_powMod tk ns c e (2 * lam) hns hc
  refine ⟨cp * w % ns, ?_, Nat.mod_lt _ (by omega), ?_⟩
  · unfold ThresholdPublicKey.updateCprime
    rw [hnseq, hsh, hw, Option.map_some']
  · rw [ZMod.natCast_mod, Nat.cast_mul, hwcast]

/-- The `cprime` accumulation loop of `CombinePartialDecryptions` over
honest partial decryptions never panics and computes the power of the
ciphertext's unit at the summed exponents `e_i · 2·lambda_i`. -/
theorem cprime_fold (tk : ThresholdPublicKey) (ns : ℕ)
    (hnseq : tk.GetNSquare = ns) (c : ℕ)
    (hns : 1 < ns) (hc : Nat.Coprime c ns)
    (allShares : List PartialDecryption) (expOf : PartialDecryption → ℕ) :
    ∀ (P : List PartialDecryption),
      (∀ sh ∈ P, sh.Decryption = ((powMod c (expOf sh) ns : ℕ) : ℤ)) →
      ∀ (cp : ℕ), cp < ns →
      ∃ cp' : ℕ,
        P.foldl (fun acc share => acc.bind fun x =>
            tk.updateCprime x (tk.computeLambda share allShares) share) (some cp) =
          some cp' ∧
        cp' < ns ∧
        (cp' : ZMod ns) = (cp : ZMod ns) *
          ((ZMod.unitOfCoprime c hc ^
              ((P.map fun sh =>
                (expOf sh : ℤ) * (2 * tk.computeLambda sh allShares)).sum) :
            (ZMod ns)ˣ) : ZMod ns) := by
  intro P
  induction P with
  | nil =>
    intro _ cp hcp
    refine ⟨cp, rfl, hcp, ?_⟩
    simp
  | cons sh rest ih =>
    intro hP cp hcp
    obtain ⟨cp1, hstep, hcp1lt, hcp1cast⟩ :=
      updateCprime_eq tk ns hnseq c (expOf sh) (tk.computeLambda sh allShares) cp hns hc sh
        (hP sh (List.mem_cons_self sh rest))
    obtain ⟨cp', hfold, hcp'lt, hcp'cast⟩ :=
      ih (fun s hs => hP s (List.mem_cons_of_mem sh hs)) cp1 hcp1lt
    refine ⟨cp', ?_, hcp'lt, ?_⟩
    · rw [List.foldl_cons]
      show List.foldl _ ((some cp).bind fun x =>
        tk.updateCprime x (tk.computeLambda sh allShares) sh) rest = some cp'
      rw [Option.some_bind, hstep]
      exact hfold
    · rw [hcp'cast, hcp1cast, List.map_cons, List.sum_cons, zpow_add, Units.val_mul]
      ring

/-- Lagrange interpolation evaluated at `0`: any rational polynomial of
degree below `|S|` satisfies `f(0) = Σ_{i∈S} f(i)·Π_{j≠i} (-j)/(i-j)`
over any finite set `S` of integer nodes. -/
theorem lagrange_at_zero (S : Finset ℤ) (f : Polynomial ℚ)
    (hdeg : f.degree < S.card) :
    ∑ i ∈ S, f.eval (i : ℚ) * ∏ j ∈ S.erase i, (-(j : ℚ)) / ((i : ℚ) - (j : ℚ)) =
      f.eval 0 := by
  have hinj : Set.InjOn (fun i : ℤ => (i : ℚ)) ↑S := by
    intro a _ b _ hab
    have hab2 : (a : ℚ) = (b : ℚ) := hab
    exact_mod_cast hab2
  have h := Lagrange.eq_interpolate hinj hdeg
  have h0 : f.eval 0 =
      ∑ i ∈ S, f.eval (i : ℚ) *
        (Lagrange.basis S (fun i : ℤ => (i : ℚ)) i).eval 0 := by
    conv_lhs => rw [h]
    rw [Lagrange.interpolate_apply, Polynomial.eval_finset_sum]
    exact Finset.sum_congr rfl fun i _ => by
      rw [Polynomial.eval_mul, Polynomial.eval_C]
  rw [h0]
  refine Finset.sum_congr rfl fun i _ => ?_
  congr 1
  unfold Lagrange.basis
  rw [Polynomial.eval_prod]
  refine Finset.prod_congr rfl fun j _ => ?_
  unfold Lagrange.basisDivisor
  rw [Polynomial.eval_mul, Polynomial.eval_C, Polynomial.eval_sub,
    Polynomial.eval_X, Polynomial.eval_C]
  rw [div_eq_mul_inv]
  ring

theorem sum_C_mul_X_pow_degree_lt (t : ℕ) (a : ℕ → ℚ) :
    (∑ k ∈ Finset.range t, Polynomial.C (a k) * Polynomial.X ^ k).degree <
      (t : WithBot ℕ) := by
  apply lt_of_le_of_lt (Polynomial.degree_sum_le _ _)
  rw [Nat.cast_withBot, Finset.sup_lt_iff (WithBot.bot_lt_coe t)]
  intro k hk
  apply lt_of_le_of_lt (Polynomial.degree_C_mul_X_pow_le _ _)
  rw [Nat.cast_withBot, WithBot.coe_lt_coe]
  exact Finset.mem_range.mp hk

theorem eval_sum_C_mul_X_pow (t : ℕ) (a : ℕ → ℚ) (x : ℚ) :
    (∑ k ∈ Finset.range t, Polynomial.C (a k) * Polynomial.X ^ k).eval x =
      ∑ k ∈ Finset.range t, a k * x ^ k := by
  rw [Polynomial.eval_finset_sum]
  exact Finset.sum_congr rfl fun k _ => by
    rw [Polynomial.eval_mul, Polynomial.eval_C, Polynomial.eval_pow,
      Polynomial.eval_X]

theorem sum_pow_zero_eq (t : ℕ) (ht : 1 ≤ t) (a : ℕ → ℚ) :
    ∑ k ∈ Finset.range t, a k * (0 : ℚ) ^ k = a 0 := by
  rw [Finset.sum_eq_single_of_mem 0 (Finset.mem_range.mpr (by omega))]
  · norm_num
  · intro k _ hk
    rw [zero_pow hk, mul_zero]

theorem foldl_share_sum (g : ℕ → ℕ) : ∀ t : ℕ,
    (List.range t).foldl (fun a k => a + g k) 0 = ∑ k ∈ Finset.range t, g k := by
  intro t
  induction t with
  | zero => rfl
  | succ t ih =>
    rw [List.range_succ, List.foldl_append, ih, Finset.sum_range_succ]
    rfl

/-- `computeShare` is the polynomial value `Σ c_k·(index+1)^k mod nm`. -/
theorem computeShare_eq_sum (coeffs : List ℕ) (nm t index : ℕ) :
    computeShare coeffs nm t index =
      (∑ k ∈ Finset.range t, coeffs.getD k 0 * (index + 1) ^ k) % nm := by
  unfold computeShare
  rw [foldl_share_sum (fun k => coeffs.getD k 0 * (index + 1) ^ k) t]

/-- `computeLambda` reads only the `Id` field of its `share` argument. -/
theorem computeLambda_congr (tk : ThresholdPublicKey) (s1 s2 : PartialDecryption)
    (shares : List PartialDecryption) (h : s1.Id = s2.Id) :
    tk.computeLambda s1 shares = tk.computeLambda s2 shares := by
  unfold ThresholdPublicKey.computeLambda ThresholdPublicKey.updateLambda
  rw [h]

/-- The multiplicative characterization of the iterated Lagrange
coefficient (the product identity of C4, separated out for reuse). -/
theorem computeLambda_mul_prod (tk : ThresholdPublicKey) (share : PartialDecryption)
    (shares : List PartialDecryption) (l : ℕ)
    (hl : tk.TotalNumberOfDecryptionServers = l)
    (hmem : ∀ s ∈ shares, 1 ≤ s.Id ∧ s.Id ≤ (l : ℤ))
    (hshare : share ∈ shares)
    (hnodup : (shares.map (·.Id)).Nodup) :
    tk.computeLambda share shares *
        (((shares.map (·.Id)).filter (fun j => j ≠ share.Id)).map
          (fun j => share.Id - j)).prod =
      ((l.factorial : ℕ) : ℤ) *
        (((shares.map (·.Id)).filter (fun j => j ≠ share.Id)).map (fun j => -j)).prod := by
  set i := share.Id with hidef
  obtain ⟨hi1, hil⟩ := hmem share hshare
  set js := (shares.map (·.Id)).filter (fun j => j ≠ i) with hjs
  have hjsnodup : js.Nodup := hnodup.filter _
  have hjsmem : ∀ j ∈ js, (1 ≤ j ∧ j ≤ (l : ℤ)) ∧ j ≠ i := by
    intro j hj
    obtain ⟨hjmap, hjne⟩ := List.mem_filter.mp hj
    obtain ⟨s, hs, rfl⟩ := List.mem_map.mp hjmap
    exact ⟨hmem s hs, by simpa using hjne⟩
  have hdelta : (tk.delta : ℤ) = ((l.factorial : ℕ) : ℤ) := by
    unfold ThresholdPublicKey.delta
    rw [hl, Factorial_eq]
  have hplain : tk.computeLambda share shares = js.foldl (lambdaStep i) (tk.delta : ℤ) :=
    (foldl_over_ids (fun lam j => if j ≠ i then lambdaStep i lam j else lam) shares
        (tk.delta : ℤ)).trans
      (foldl_skip_eq_filter i (lambdaStep i) (shares.map (·.Id)) (tk.delta : ℤ))
  obtain ⟨hinv, _⟩ := lambdaFold_exact_invariant l i hi1 hil js ∅ (tk.delta : ℤ)
    hjsmem hjsnodup (by intro j _; exact Finset.not_mem_empty j)
    (by intro j h; exact absurd h (Finset.not_mem_empty j))
    (by rw [hdelta]; simp)
  rw [Finset.empty_union] at hinv
  have hlistprod1 : (js.toFinset.prod fun j => i - j) = (js.map fun j => i - j).prod :=
    List.prod_toFinset _ hjsnodup
  have hlistprod2 : (js.toFinset.prod fun j => -j) = (js.map fun j => -j).prod :=
    List.prod_toFinset _ hjsnodup
  rw [hplain, ← hlistprod1, ← hlistprod2]
  exact hinv

theorem list_sum_modEq {α : Type} (n : ℤ) (xs : List α) (f g : α → ℤ)
    (h : ∀ x ∈ xs, f x ≡ g x [ZMOD n]) :
    (xs.map f).sum ≡ (xs.map g).sum [ZMOD n] := by
  induction xs with
  | nil => rfl
  | cons x xs ih =>
    rw [List.map_cons, List.map_cons, List.sum_cons, List.sum_cons]
    exact (h x (List.mem_cons_self x xs)).add
      (ih fun y hy => h y (List.mem_cons_of_mem x hy))

/-- The Lagrange-weighted sum of polynomial values: for a list `I` of at
least `t` distinct integer nodes and integers `lamOf i` satisfying the
product identity `lamOf i · Π_{j≠i}(i-j) = l! · Π_{j≠i}(-j)` over `I`,
the weighted sum `Σ_{i∈I} lamOf i · f(i)` of any polynomial
`f(x) = Σ_{k<t} c_k·x^k` equals `l! · c₀`. -/
theorem lambda_weighted_sum (l t : ℕ) (ht : 1 ≤ t) (I : List ℤ) (hI : I.Nodup)
    (hlen : t ≤ I.length) (cs : ℕ → ℕ) (lamOf : ℤ → ℤ)
    (hlam : ∀ i ∈ I,
      lamOf i * ((I.filter (fun j => j ≠ i)).map (fun j => i - j)).prod =
        ((l.factorial : ℕ) : ℤ) *
          ((I.filter (fun j => j ≠ i)).map (fun j => -j)).prod) :
    (I.map (fun i => lamOf i * ∑ k ∈ Finset.range t, (cs k : ℤ) * i ^ k)).sum =
      ((l.factorial : ℕ) : ℤ) * (cs 0 : ℤ) := by
  set Δ : ℤ := ((l.factorial : ℕ) : ℤ) with hΔ
  set S : Finset ℤ := I.toFinset with hS
  set f : Polynomial ℚ :=
    ∑ k ∈ Finset.range t, Polynomial.C ((cs k : ℕ) : ℚ) * Polynomial.X ^ k with hf
  have hScard : S.card = I.length := List.toFinset_card_of_nodup hI
  have hdeg : f.degree < (S.card : WithBot ℕ) := by
    apply lt_of_lt_of_le (sum_C_mul_X_pow_degree_lt t _)
    rw [Nat.cast_withBot, Nat.cast_withBot, WithBot.coe_le_coe, hScard]
    exact hlen
  have hlag := lagrange_at_zero S f hdeg
  have hlamQ : ∀ i ∈ S, ((lamOf i : ℤ) : ℚ) =
      (Δ : ℚ) * ∏ j ∈ S.erase i, (-(j : ℚ)) / ((i : ℚ) - (j : ℚ)) := by
    intro i hiS
    have hiI : i ∈ I := List.mem_toFinset.mp hiS
    have hprod := hlam i hiI
    set fil := I.filter (fun j => j ≠ i) with hfil
    have hfilnodup : fil.Nodup := hI.filter _
    have hfinset : fil.toFinset = S.erase i := by
      ext x
      simp only [hfil, hS, List.mem_toFinset, List.mem_filter, Finset.mem_erase,
        decide_eq_true_eq]
      tauto
    have hA : (((fil.map (fun j => i - j)).prod : ℤ) : ℚ) =
        ∏ j ∈ S.erase i, ((i : ℚ) - (j : ℚ)) := by
      rw [← hfinset, List.prod_toFinset _ hfilnodup]
      rw [show ((Int.cast : ℤ → ℚ) = (Int.castRingHom ℚ : ℤ → ℚ)) from rfl,
        map_list_prod (Int.castRingHom ℚ) ((fil.map (fun j => i - j)) : List ℤ),
        List.map_map]
      refine congrArg List.prod (List.map_congr_left fun j _ => ?_)
      simp
    have hB : (((fil.map (fun j => -j)).prod : ℤ) : ℚ) =
        ∏ j ∈ S.erase i, (-(j : ℚ)) := by
      rw [← hfinset, List.prod_toFinset _ hfilnodup]
      rw [show ((Int.cast : ℤ → ℚ) = (Int.castRingHom ℚ : ℤ → ℚ)) from rfl,
        map_list_prod (Int.castRingHom ℚ) ((fil.map (fun j => -j)) : List ℤ),
        List.map_map]
      refine congrArg List.prod (List.map_congr_left fun j _ => ?_)
      simp
    have hAne : (((fil.map (fun j => i - j)).prod : ℤ) : ℚ) ≠ 0 := by
      have hz : ((fil.map (fun j => i - j)).prod : ℤ) ≠ 0 := by
        apply List.prod_ne_zero
        intro hmem0
        obtain ⟨j, hj, hj0⟩ := List.mem_map.mp hmem0
        obtain ⟨_, hjne⟩ := List.mem_filter.mp hj
        have : j ≠ i := by simpa using hjne
        omega
      exact_mod_cast hz
    have hcast : ((lamOf i : ℤ) : ℚ) * (((fil.map (fun j => i - j)).prod : ℤ) : ℚ) =
        (Δ : ℚ) * (((fil.map (fun j => -j)).prod : ℤ) : ℚ) := by
      exact_mod_cast congrArg (fun z : ℤ => (z : ℚ)) hprod
    have hsolve : ((lamOf i : ℤ) : ℚ) =
        (Δ : ℚ) * (((fil.map (fun j => -j)).prod : ℤ) : ℚ) /
          (((fil.map (fun j => i - j)).prod : ℤ) : ℚ) := by
      rw [eq_div_iff hAne]
      exact hcast
    rw [hsolve, hA, hB, Finset.prod_div_distrib]
    ring
  have hcastsum :
      (((I.map (fun i => lamOf i * ∑ k ∈ Finset.range t, (cs k : ℤ) * i ^ k)).sum : ℤ) : ℚ) =
      ∑ i ∈ S, ((lamOf i : ℤ) : ℚ) * f.eval (i : ℚ) := by
    rw [show ((Int.cast : ℤ → ℚ) = (Int.castRingHom ℚ : ℤ → ℚ)) from rfl,
      map_list_sum (Int.castRingHom ℚ) _, List.map_map]
    rw [hS, List.sum_toFinset _ hI]
    refine congrArg List.sum (List.map_congr_left fun i _ => ?_)
    rw [hf, eval_sum_C_mul_X_pow]
    show ((lamOf i * ∑ k ∈ Finset.range t, (cs k : ℤ) * i ^ k : ℤ) : ℚ) =
      (lamOf i : ℚ) * ∑ k ∈ Finset.range t, ((cs k : ℕ) : ℚ) * (i : ℚ) ^ k
    push_cast
    ring
  have hmain : ∑ i ∈ S, ((lamOf i : ℤ) : ℚ) * f.eval (i : ℚ) =
      (Δ : ℚ) * ((cs 0 : ℕ) : ℚ) := by
    have hterm : ∀ i ∈ S, ((lamOf i : ℤ) : ℚ) * f.eval (i : ℚ) =
        (Δ : ℚ) * (f.eval (i : ℚ) *
          ∏ j ∈ S.erase i, (-(j : ℚ)) / ((i : ℚ) - (j : ℚ))) := by
      intro i hiS
      rw [hlamQ i hiS]
      ring
    rw [Finset.sum_congr rfl hterm, ← Finset.mul_sum, hlag]
    congr 1
    rw [hf, eval_sum_C_mul_X_pow, sum_pow_zero_eq t ht]
  have hfin := hcastsum.trans hmain
  exact_mod_cast hfin

/-- The ciphertext raised to `4·D²·d` (where `d = mInv·m ≡ 1 mod n`,
`≡ 0 mod m`) collapses to the canonical form `1 + (4·D²·m₀ mod n)·n`
modulo `n²`, for any `D`. -/
theorem cipher_pow_combine (p q p1 q1 r m₀ mInv D : ℕ)
    (hp : p.Prime) (hq : q.Prime) (hne : p ≠ q)
    (hpp1 : p = 2 * p1 + 1) (hqq1 : q = 2 * q1 + 1)
    (hr : Nat.Coprime r (p * q))
    (hmInv : p1 * q1 * mInv % (p * q) = 1 % (p * q)) :
    rawCipher (p * q) m₀ r ^ (4 * D * D * (mInv * (p1 * q1))) ≡
      1 + 4 * D * D * m₀ % (p * q) * (p * q) [MOD (p * q) ^ 2] := by
  set n := p * q with hn
  set m1 := p1 * q1 with hm1
  set dd := mInv * m1 with hdd
  set E := 4 * D * D * dd with hE
  have hn0 : 0 < n := by
    have := hp.two_le
    have := hq.two_le
    positivity
  have h1 : rawCipher n m₀ r ^ E ≡ (r ^ n * (n + 1) ^ m₀) ^ E [MOD n ^ 2] :=
    (rawCipher_modEq n m₀ r).pow E
  have h2 : (r ^ n * (n + 1) ^ m₀) ^ E = r ^ (n * E) * (n + 1) ^ (m₀ * E) := by
    rw [mul_pow, ← pow_mul, ← pow_mul]
  have hphi : Nat.totient (n ^ 2) = 4 * (n * m1) := by
    rw [hn, totient_pq_sq p q hp hq hne]
    have hps : p - 1 = 2 * p1 := by omega
    have hqs : q - 1 = 2 * q1 := by omega
    rw [hps, hqs, hm1]
    ring
  have h3 : r ^ (n * E) ≡ 1 [MOD n ^ 2] := by
    have hrsq : Nat.Coprime r (n ^ 2) := hr.pow_right 2
    have hmul : n * E = Nat.totient (n ^ 2) * (D * D * mInv) := by
      rw [hphi, hE, hdd, hm1]
      ring
    calc r ^ (n * E) = (r ^ Nat.totient (n ^ 2)) ^ (D * D * mInv) := by
          rw [← pow_mul, hmul]
      _ ≡ 1 ^ (D * D * mInv) [MOD n ^ 2] := (Nat.ModEq.pow_totient hrsq).pow _
      _ = 1 := one_pow _
  have h4 : (n + 1) ^ (m₀ * E) ≡ 1 + m₀ * E * n [MOD n ^ 2] :=
    one_add_pow_modEq n (m₀ * E)
  have h5 : rawCipher n m₀ r ^ E ≡ 1 + m₀ * E * n [MOD n ^ 2] := by
    calc rawCipher n m₀ r ^ E ≡ r ^ (n * E) * (n + 1) ^ (m₀ * E) [MOD n ^ 2] :=
        h2 ▸ h1
      _ ≡ 1 * (1 + m₀ * E * n) [MOD n ^ 2] := h3.mul h4
      _ = 1 + m₀ * E * n := by ring
  have h6 : 1 + m₀ * E * n ≡ 1 + m₀ * E % n * n [MOD n ^ 2] := by
    have hsplit : m₀ * E = n * (m₀ * E / n) + m₀ * E % n := (Nat.div_add_mod _ _).symm
    have heq : 1 + m₀ * E * n = 1 + m₀ * E % n * n + m₀ * E / n * n ^ 2 := by
      conv_lhs => rw [hsplit]
      ring
    rw [heq]
    calc 1 + m₀ * E % n * n + m₀ * E / n * n ^ 2
        ≡ 1 + m₀ * E % n * n + 0 [MOD n ^ 2] :=
          Nat.ModEq.add_left _ (Nat.modEq_zero_iff_dvd.mpr ⟨m₀ * E / n, by ring⟩)
      _ = 1 + m₀ * E % n * n := by ring
  have h7 : m₀ * E % n = 4 * D * D * m₀ % n := by
    have hd1 : dd ≡ 1 [MOD n] := by
      show dd % n = 1 % n
      rw [hdd, hm1]
      rw [show mInv * (p1 * q1) = p1 * q1 * mInv by ring]
      exact hmInv
    have : m₀ * E ≡ 4 * D * D * m₀ * 1 [MOD n] := by
      have hrw : m₀ * E = 4 * D * D * m₀ * dd := by rw [hE]; ring
      rw [hrw]
      exact hd1.mul_left _
    have h8 := this
    unfold Nat.ModEq at h8
    rw [h8]
    congr 1
    ring
  calc rawCipher n m₀ r ^ E ≡ 1 + m₀ * E % n * n [MOD n ^ 2] := h5.trans h6
    _ = 1 + 4 * D * D * m₀ % n * n := by rw [h7]

theorem natCast_mod_modEq (a n : ℕ) :
    ((a % n : ℕ) : ℤ) ≡ ((a : ℕ) : ℤ) [ZMOD (n : ℤ)] := by
  show ((a % n : ℕ) : ℤ) % (n : ℤ) = ((a : ℕ) : ℤ) % (n : ℤ)
  rw [Int.natCast_mod]
  exact Int.emod_emod_of_dvd _ dvd_rfl

/-- Core correctness of `CombinePartialDecryptions`: on honest partial
decryptions of a ciphertext of `m₀` from at least `t` distinct servers,
with safe primes larger than the number of servers, combining returns
`m₀`. -/
theorem combine_core (tk : ThresholdPublicKey) (p p1 q q1 mInv t l : ℕ)
    (coeffs : List ℕ) (m₀ r c : ℕ) (idxs : List ℕ)
    (hp : p.Prime) (hq : q.Prime) (hne : p ≠ q)
    (hpp1 : p = 2 * p1 + 1) (hqq1 : q = 2 * q1 + 1)
    (hpl : l < p) (hql : l < q)
    (htl : t ≤ l) (hlt2 : l < 2 * t)
    (hN : tk.N = p * q)
    (hTot : tk.TotalNumberOfDecryptionServers = l)
    (hThr : tk.Threshold = t)
    (hmInv : modInverse (p1 * q1) (p * q) = some mInv)
    (hm₀ : m₀ < p * q)
    (hr : Nat.Coprime r (p * q))
    (hc : c = rawCipher (p * q) m₀ r)
    (hidx : ∀ i ∈ idxs, i < l) (hnodup : idxs.Nodup) (hlen : t ≤ idxs.length) :
    tk.CombinePartialDecryptions (idxs.map fun i =>
        { Id := ((i + 1 : ℕ) : ℤ),
          Decryption := ((powMod c
            (computeShare ((mInv * (p1 * q1)) :: coeffs) (p * q * (p1 * q1)) t i *
              (2 * Factorial l)) (p * q * (p * q)) : ℕ) : ℤ) } : List PartialDecryption) =
      .ok (some ((m₀ : ℕ) : ℤ)) := by
  set n := p * q with hn
  set m1 := p1 * q1 with hm1
  set ns := p * q * (p * q) with hns
  set Δ := Factorial l with hΔdef
  set dd := mInv * m1 with hdd
  set dCoeffs := dd :: coeffs with hdC
  set nm := p * q * m1 with hnm
  have hp2 := hp.two_le
  have hq2 := hq.two_le
  have hn4 : 4 ≤ n := by
    rw [hn]
    calc 4 = 2 * 2 := by norm_num
      _ ≤ p * q := Nat.mul_le_mul hp2 hq2
  have hn0 : 0 < n := by omega
  have hnsval : ns = n * n := by rw [hns, hn]
  have hns1 : 1 < ns := by rw [hnsval]; nlinarith
  have hnspow : ns = n ^ 2 := by rw [hnsval]; ring
  have htpos : 1 ≤ t := by omega
  obtain ⟨hmulInv, hmInvlt, hgcdm⟩ := modInverse_spec m1 n mInv hmInv
  -- the ciphertext is a unit modulo ns
  have hcco : Nat.Coprime c ns := by
    rw [hc, hnspow]
    apply coprime_of_modEq _ (r ^ n * (n + 1) ^ m₀) _ (rawCipher_modEq n m₀ r)
    have hsucc : Nat.Coprime (n + 1) n := by
      unfold Nat.Coprime
      rw [Nat.add_comm, Nat.gcd_add_self_left]
      exact Nat.gcd_one_left n
    exact Nat.Coprime.mul (hr.pow n 2) (hsucc.pow m₀ 2)
  set shares : List PartialDecryption := idxs.map (fun i =>
      { Id := ((i + 1 : ℕ) : ℤ),
        Decryption := ((powMod c (computeShare dCoeffs nm t i * (2 * Δ)) ns : ℕ) : ℤ) })
    with hsharesdef
  set I : List ℤ := shares.map (·.Id) with hIdef
  have hI_eq : I = idxs.map (fun i => ((i + 1 : ℕ) : ℤ)) := by
    rw [hIdef, hsharesdef, List.map_map]
    rfl
  have hInodup : I.Nodup := by
    rw [hI_eq]
    refine List.Nodup.map ?_ hnodup
    intro a b hab
    have := Nat.cast_inj (R := ℤ) |>.mp hab
    omega
  have hIlen : I.length = idxs.length := by rw [hI_eq, List.length_map]
  have hslen : shares.length = idxs.length := by rw [hsharesdef, List.length_map]
  have hmemI : ∀ s ∈ shares, 1 ≤ s.Id ∧ s.Id ≤ (l : ℤ) := by
    intro s hs
    rw [hsharesdef] at hs
    obtain ⟨i, hi, rfl⟩ := List.mem_map.mp hs
    have hil := hidx i hi
    constructor
    · show (1 : ℤ) ≤ ((i + 1 : ℕ) : ℤ)
      push_cast
      omega
    · show ((i + 1 : ℕ) : ℤ) ≤ (l : ℤ)
      push_cast
      omega
  have hmapnodup : (shares.map (·.Id)).Nodup := by
    rw [← hIdef]
    exact hInodup
  have hpre : tk.verifyPartialDecryptions shares = none := by
    unfold ThresholdPublicKey.verifyPartialDecryptions
    have h1 : ¬ shares.length < tk.Threshold := by
      rw [hslen, hThr]
      omega
    have h2 : ¬ ((shares.map (·.Id)).dedup.length ≠ shares.length) := by
      rw [← hIdef, List.dedup_eq_self.mpr hInodup]
      intro hcon
      exact hcon (by rw [hIdef, List.length_map])
    rw [if_neg h1, if_neg h2]
  show tk.CombinePartialDecryptions shares = Except.ok (some ((m₀ : ℕ) : ℤ))
  unfold ThresholdPublicKey.CombinePartialDecryptions
  rw [hpre]
  show Except.ok ((shares.foldl (fun acc share => acc.bind fun cp =>
      tk.updateCprime cp (tk.computeLambda share shares) share) (some 1)).bind
        tk.computeDecryption) = Except.ok (some ((m₀ : ℕ) : ℤ))
  have htkns : tk.GetNSquare = ns := by
    unfold ThresholdPublicKey.GetNSquare
    rw [hN]
  set expOf : PartialDecryption → ℕ :=
    fun sh => computeShare dCoeffs nm t ((sh.Id - 1).toNat) * (2 * Δ) with hexpOfdef
  have hP : ∀ sh ∈ shares, sh.Decryption = ((powMod c (expOf sh) ns : ℕ) : ℤ) := by
    intro sh hs
    rw [hsharesdef] at hs
    obtain ⟨i, hi, rfl⟩ := List.mem_map.mp hs
    show ((powMod c (computeShare dCoeffs nm t i * (2 * Δ)) ns : ℕ) : ℤ) =
      ((powMod c (computeShare dCoeffs nm t ((((i + 1 : ℕ) : ℤ) - 1).toNat) * (2 * Δ))
        ns : ℕ) : ℤ)
    have hid : ((((i + 1 : ℕ) : ℤ) - 1).toNat) = i := by
      have h1 : (((i + 1 : ℕ) : ℤ) - 1) = ((i : ℕ) : ℤ) := by push_cast; ring
      rw [h1, Int.toNat_natCast]
    rw [hid]
  obtain ⟨cp', hfold, hcp'lt, hcp'cast⟩ :=
    cprime_fold tk ns htkns c hns1 hcco shares expOf shares hP 1 (by omega)
  rw [hfold, Option.some_bind]
  set u : (ZMod ns)ˣ := ZMod.unitOfCoprime c hcco with hu
  set T : ℤ :=
    (shares.map fun sh => (expOf sh : ℤ) * (2 * tk.computeLambda sh shares)).sum with hT
  set K : ℤ :=
    (shares.map fun sh => ((computeShare dCoeffs nm t ((sh.Id - 1).toNat) : ℕ) : ℤ) *
      tk.computeLambda sh shares).sum with hK
  have hT4 : T = (4 * (Δ : ℤ)) * K := by
    rw [hT, hK, ← List.sum_map_mul_left]
    refine congrArg List.sum (List.map_congr_left fun sh _ => ?_)
    show (expOf sh : ℤ) * (2 * tk.computeLambda sh shares) = _
    rw [hexpOfdef]
    push_cast
    ring
  -- the weighted share sum is congruent to Δ·d modulo n·m
  have hKmod : K ≡ (Δ : ℤ) * (dd : ℤ) [ZMOD (nm : ℤ)] := by
    have hstep1 : K ≡ (shares.map fun sh =>
        ((∑ k ∈ Finset.range t, dCoeffs.getD k 0 * ((sh.Id - 1).toNat + 1) ^ k : ℕ) : ℤ) *
          tk.computeLambda sh shares).sum [ZMOD (nm : ℤ)] := by
      rw [hK]
      refine list_sum_modEq _ _ _ _ fun sh _ => ?_
      refine Int.ModEq.mul_right _ ?_
      rw [computeShare_eq_sum]
      exact natCast_mod_modEq _ _
    have hstep2 : (shares.map fun sh =>
        ((∑ k ∈ Finset.range t, dCoeffs.getD k 0 * ((sh.Id - 1).toNat + 1) ^ k : ℕ) : ℤ) *
          tk.computeLambda sh shares).sum = (Δ : ℤ) * (dd : ℤ) := by
      have hmap : (shares.map fun sh =>
          ((∑ k ∈ Finset.range t, dCoeffs.getD k 0 * ((sh.Id - 1).toNat + 1) ^ k : ℕ) : ℤ) *
            tk.computeLambda sh shares).sum =
          (I.map fun z => tk.computeLambda ⟨z, 0⟩ shares *
            ∑ k ∈ Finset.range t, ((dCoeffs.getD k 0 : ℕ) : ℤ) * z ^ k).sum := by
        conv_rhs => rw [hIdef, List.map_map]
        refine congrArg List.sum (List.map_congr_left fun sh hsh => ?_)
        rw [hsharesdef] at hsh
        obtain ⟨i, hi, rfl⟩ := List.mem_map.mp hsh
        have hid : ((((i + 1 : ℕ) : ℤ) - 1).toNat) = i := by
          have h1 : (((i + 1 : ℕ) : ℤ) - 1) = ((i : ℕ) : ℤ) := by push_cast; ring
          rw [h1, Int.toNat_natCast]
        have hlamcongr : tk.computeLambda (⟨((i + 1 : ℕ) : ℤ), 0⟩ : PartialDecryption)
              shares =
            tk.computeLambda (⟨((i + 1 : ℕ) : ℤ),
              ((powMod c (computeShare dCoeffs nm t i * (2 * Δ)) ns : ℕ) : ℤ)⟩ :
                PartialDecryption) shares :=
          computeLambda_congr tk _ _ shares rfl
        show ((∑ k ∈ Finset.range t,
            dCoeffs.getD k 0 * ((((i + 1 : ℕ) : ℤ) - 1).toNat + 1) ^ k : ℕ) : ℤ) *
            tk.computeLambda (⟨((i + 1 : ℕ) : ℤ),
              ((powMod c (computeShare dCoeffs nm t i * (2 * Δ)) ns : ℕ) : ℤ)⟩ :
                PartialDecryption) shares =
          tk.computeLambda (⟨((i + 1 : ℕ) : ℤ), 0⟩ : PartialDecryption) shares *
            ∑ k ∈ Finset.range t, ((dCoeffs.getD k 0 : ℕ) : ℤ) * ((i + 1 : ℕ) : ℤ) ^ k
        rw [hid, ← hlamcongr]
        have hcast : ((∑ k ∈ Finset.range t, dCoeffs.getD k 0 * (i + 1) ^ k : ℕ) : ℤ) =
            ∑ k ∈ Finset.range t, ((dCoeffs.getD k 0 : ℕ) : ℤ) * ((i + 1 : ℕ) : ℤ) ^ k := by
          push_cast
          rfl
        rw [hcast]
        exact mul_comm _ _
      rw [hmap]
      have hws := lambda_weighted_sum l t htpos I hInodup
        (by rw [hIlen]; exact hlen) (fun k => dCoeffs.getD k 0)
        (fun z => tk.computeLambda ⟨z, 0⟩ shares) ?_
      · rw [hws]
        have hfact : ((l.factorial : ℕ) : ℤ) = (Δ : ℤ) := by
          rw [hΔdef, Factorial_eq]
        have hcs0 : (dCoeffs.getD 0 0 : ℕ) = dd := by rw [hdC]; rfl
        rw [hfact, hcs0]
      · intro z hzI
        obtain ⟨sh, hshmem, hshid⟩ := List.mem_map.mp (hIdef ▸ hzI)
        have hcl := computeLambda_mul_prod tk sh shares l hTot hmemI hshmem hmapnodup
        have hlz : tk.computeLambda (⟨z, 0⟩ : PartialDecryption) shares =
            tk.computeLambda sh shares :=
          computeLambda_congr tk _ _ shares (by rw [← hshid])
        show tk.computeLambda (⟨z, 0⟩ : PartialDecryption) shares *
            ((I.filter (fun j => j ≠ z)).map (fun j => z - j)).prod =
          ((l.factorial : ℕ) : ℤ) * ((I.filter (fun j => j ≠ z)).map (fun j => -j)).prod
        rw [hlz, ← hshid, hIdef]
        exact hcl
    exact hstep1.trans (hstep2 ▸ Int.ModEq.refl _)
  -- replace the exponent by 4·Δ²·d using that the unit group has order 4·n·m
  obtain ⟨w', hw'⟩ := Int.modEq_iff_dvd.mp hKmod
  have hKval : K = (Δ : ℤ) * (dd : ℤ) - (nm : ℤ) * w' := by linarith
  have hT2 : T = ((4 * Δ * Δ * dd : ℕ) : ℤ) + ((4 * nm : ℕ) : ℤ) * (-((Δ : ℤ) * w')) := by
    rw [hT4, hKval]
    push_cast
    ring
  have hphi : Nat.totient ns = 4 * nm := by
    rw [hnspow, hn, totient_pq_sq p q hp hq hne]
    have hps : p - 1 = 2 * p1 := by omega
    have hqs : q - 1 = 2 * q1 := by omega
    rw [hps, hqs, hnm, hm1]
    ring
  have hu4nm : u ^ ((4 * nm : ℕ) : ℤ) = 1 := by
    rw [zpow_natCast]
    calc u ^ (4 * nm) = u ^ Nat.totient ns := by rw [hphi]
      _ = 1 := ZMod.pow_totient u
  have huT : u ^ T = u ^ ((4 * Δ * Δ * dd : ℕ) : ℤ) := by
    rw [hT2, zpow_add, zpow_mul, hu4nm, one_zpow, mul_one]
  have hcpval : cp' ≡ c ^ (4 * Δ * Δ * dd) [MOD ns] := by
    have h1 : (cp' : ZMod ns) = ((c ^ (4 * Δ * Δ * dd) : ℕ) : ZMod ns) := by
      rw [hcp'cast, huT, Nat.cast_one, one_mul, zpow_natCast,
        Units.val_pow_eq_pow_val, hu, ZMod.coe_unitOfCoprime, ← Nat.cast_pow]
    exact (ZMod.natCast_eq_natCast_iff _ _ _).mp h1
  set wv : ℕ := 4 * Δ * Δ * m₀ % n with hwv
  have hcrypt : c ^ (4 * Δ * Δ * dd) ≡ 1 + wv * n [MOD ns] := by
    rw [hnspow, hc, hwv]
    exact cipher_pow_combine p q p1 q1 r m₀ mInv Δ hp hq hne hpp1 hqq1 hr hmulInv
  have hcp'modeq : cp' ≡ 1 + wv * n [MOD ns] := hcpval.trans hcrypt
  have hwvlt : wv < n := Nat.mod_lt _ hn0
  have hbound : 1 + wv * n < ns := by
    have h1 : wv * n ≤ (n - 1) * n := Nat.mul_le_mul_right n (by omega)
    have h2 : (n - 1) * n = n * n - n := by rw [Nat.sub_mul, one_mul]
    have h3 : n ≤ n * n := Nat.le_mul_of_pos_left n (by omega)
    omega
  have hcp'eq : cp' = 1 + wv * n := by
    have h := hcp'modeq
    unfold Nat.ModEq at h
    rw [Nat.mod_eq_of_lt hcp'lt, Nat.mod_eq_of_lt hbound] at h
    exact h
  -- the final `computeDecryption` step
  have hdel : tk.delta = Δ := by
    unfold ThresholdPublicKey.delta
    rw [hTot, ← hΔdef]
  have hp1pos : 1 ≤ p1 := by omega
  have hq1pos : 1 ≤ q1 := by omega
  have hgcd4 : Nat.Coprime (4 * (Δ * Δ)) n := by
    have hnotdvd : ∀ s : ℕ, s.Prime → 3 ≤ s → l < s → ¬ s ∣ 4 * (Δ * Δ) := by
      intro s hs hs3 hls hdvd
      rcases (Nat.Prime.dvd_mul hs).mp hdvd with h4 | hΔd
      · have h22 : (4 : ℕ) = 2 ^ 2 := by norm_num
        rw [h22] at h4
        have hs2 := (Nat.prime_dvd_prime_iff_eq hs Nat.prime_two).mp
          (Nat.Prime.dvd_of_dvd_pow hs h4)
        omega
      · have hsd : s ∣ Δ := by
          rcases (Nat.Prime.dvd_mul hs).mp hΔd with h | h <;> exact h
        rw [hΔdef, Factorial_eq] at hsd
        have := (Nat.Prime.dvd_factorial hs).mp hsd
        omega
    have hcp : Nat.Coprime (4 * (Δ * Δ)) p :=
      Nat.coprime_comm.mp ((Nat.Prime.coprime_iff_not_dvd hp).mpr
        (hnotdvd p hp (by omega) hpl))
    have hcq : Nat.Coprime (4 * (Δ * Δ)) q :=
      Nat.coprime_comm.mp ((Nat.Prime.coprime_iff_not_dvd hq).mpr
        (hnotdvd q hq (by omega) hql))
    rw [hn]
    exact Nat.Coprime.mul_right hcp hcq
  have hcscex : (modInverse (4 * (tk.delta * tk.delta)) tk.N).isSome := by
    rw [hdel, hN]
    exact modInverse_isSome _ _ (by omega) hgcd4
  obtain ⟨csc, hcscsome⟩ := Option.isSome_iff_exists.mp hcscex
  obtain ⟨hcscmul, hcsclt, -⟩ := modInverse_spec _ _ _ hcscsome
  unfold ThresholdPublicKey.computeDecryption ThresholdPublicKey.combineSharesConstant
  rw [hcscsome]
  show Except.ok (some ((csc : ℤ) * L ((cp' : ℕ) : ℤ) ((tk.N : ℕ) : ℤ) %
      ((tk.N : ℕ) : ℤ))) = Except.ok (some ((m₀ : ℕ) : ℤ))
  have hX : (csc : ℤ) * L ((cp' : ℕ) : ℤ) ((tk.N : ℕ) : ℤ) % ((tk.N : ℕ) : ℤ) =
      ((m₀ : ℕ) : ℤ) := by
    rw [hN, hcp'eq]
    have hL : L ((1 + wv * n : ℕ) : ℤ) ((n : ℕ) : ℤ) = ((wv : ℕ) : ℤ) := by
      unfold L
      push_cast
      rw [add_comm, add_sub_cancel_right]
      exact Int.mul_ediv_cancel _ (by exact_mod_cast (by omega : n ≠ 0))
    rw [hL]
    have hfin : csc * wv % n = m₀ := by
      have h1 : csc * wv ≡ csc * (4 * Δ * Δ * m₀) [MOD n] := by
        have hmm := Nat.mod_modEq (4 * Δ * Δ * m₀) n
        rw [← hwv] at hmm
        exact hmm.mul_left csc
      have h2 : csc * (4 * Δ * Δ * m₀) = 4 * (Δ * Δ) * csc * m₀ := by ring
      have h3 : 4 * (Δ * Δ) * csc ≡ 1 % n [MOD n] := by
        show 4 * (Δ * Δ) * csc % n = 1 % n % n
        rw [Nat.mod_mod_of_dvd _ (dvd_refl n)]
        have hmm := hcscmul
        rw [hdel, hN] at hmm
        exact hmm
      have h4 : 4 * (Δ * Δ) * csc * m₀ ≡ 1 % n * m₀ [MOD n] := h3.mul_right m₀
      have h5 : 1 % n * m₀ ≡ 1 * m₀ [MOD n] := (Nat.mod_modEq 1 n).mul_right m₀
      have h6 := (h1.trans (h2 ▸ h4)).trans h5
      have h7 : csc * wv % n = m₀ % n := by simpa using h6
      rw [h7]
      exact Nat.mod_eq_of_lt hm₀
    exact_mod_cast hfin
  rw [hX]

/-- Combining panics (nil `ModInverse`, `.ok none`) whenever the
combineSharesConstant inverse does not exist, even though the `cprime`
loop itself succeeds on honest shares. -/
theorem combine_panic_core (tk : ThresholdPublicKey) (ns : ℕ)
    (hnseq : tk.GetNSquare = ns) (hns1 : 1 < ns)
    (c : ℕ) (hcco : Nat.Coprime c ns)
    (shares : List PartialDecryption) (expOf : PartialDecryption → ℕ)
    (hP : ∀ sh ∈ shares, sh.Decryption = ((powMod c (expOf sh) ns : ℕ) : ℤ))
    (hpre : tk.verifyPartialDecryptions shares = none)
    (hgcd : Nat.gcd (4 * (tk.delta * tk.delta)) tk.N ≠ 1) :
    tk.CombinePartialDecryptions shares = .ok none := by
  unfold ThresholdPublicKey.CombinePartialDecryptions
  rw [hpre]
  obtain ⟨cp', hfold, -, -⟩ :=
    cprime_fold tk ns hnseq c hns1 hcco shares expOf shares hP 1 (by omega)
  show Except.ok ((shares.foldl (fun acc share => acc.bind fun cp =>
      tk.updateCprime cp (tk.computeLambda share shares) share) (some 1)).bind
        tk.computeDecryption) = Except.ok none
  rw [hfold, Option.some_bind]
  unfold ThresholdPublicKey.computeDecryption ThresholdPublicKey.combineSharesConstant
  rw [modInverse_eq_none _ _ hgcd]
  rfl

/-- **C2** (amended).  For a threshold key set produced by the dealer on
safe primes `p = 2p1+1`, `q = 2q1+1` that pass the generator's
`arePsAndQsGood` retry check and are larger than the number of servers
`l` (the added hypotheses `l < p`, `l < q`), with combining-valid
parameters `t ≤ l < 2t`, any `t` or more honest partial decryptions of
`EncryptWithR`'s ciphertext of `m₀ < N` (randomness coprime to `N`)
from distinct servers combine to exactly `m₀`. -/
theorem claimC2 (l t p p1 q q1 rv r m₀ c j : ℕ) (coeffs : List ℕ)
    (keys : List ThresholdSecretKey) (idxs : List ℕ)
    (hp : p.Prime) (hq : q.Prime)
    (hpp1 : p = 2 * p1 + 1) (hqq1 : q = 2 * q1 + 1)
    (hgood : arePsAndQsGood p p1 q q1 = true)
    (hpl : l < p) (hql : l < q)
    (htl : t ≤ l) (hlt2 : l < 2 * t)
    (hgen : GenerateKeys l t p p1 q q1 rv coeffs = some keys)
    (hm₀ : m₀ < p * q)
    (hr : Nat.Coprime r (p * q))
    (hc : PublicKey.EncryptWithR ⟨p * q, p * q + 1⟩ ((m₀ : ℕ) : ℤ) r = some c)
    (hj : j < l)
    (hidx : ∀ i ∈ idxs, i < l) (hnodup : idxs.Nodup) (hlen : t ≤ idxs.length) :
    ((keys.getD j default).toThresholdPublicKey).CombinePartialDecryptions
      (idxs.map fun i => (keys.getD i default).Decrypt c) =
      .ok (some ((m₀ : ℕ) : ℤ)) := by
  obtain ⟨mInv, hmInv, hklen, hfields⟩ :=
    generateKeys_fields l t p p1 q q1 rv coeffs keys hgen
  have hne : p ≠ q := by
    have hg : ¬(p = q) ∧ ¬(p = q1) ∧ ¬(p1 = q) := by
      have hg0 := hgood
      unfold arePsAndQsGood at hg0
      exact of_decide_eq_true hg0
    exact hg.1
  have hceq : c = rawCipher (p * q) m₀ r := by
    unfold PublicKey.EncryptWithR at hc
    rw [if_neg] at hc
    · have h1 := Option.some_inj.mp hc
      rw [← h1]
      rfl
    · push_neg
      refine ⟨by positivity, ?_⟩
      show ((p * q : ℕ) : ℤ) > ((m₀ : ℕ) : ℤ)
      exact_mod_cast hm₀
  have hshares : (idxs.map fun i => (keys.getD i default).Decrypt c) =
      idxs.map (fun i => (⟨((i + 1 : ℕ) : ℤ),
        ((powMod c (computeShare ((mInv * (p1 * q1)) :: coeffs)
          (p * q * (p1 * q1)) t i * (2 * Factorial l)) (p * q * (p * q)) : ℕ) : ℤ)⟩ :
        PartialDecryption)) := by
    refine List.map_congr_left fun i hi => ?_
    obtain ⟨hNi, hTi, hThi, hIdi, hShi⟩ := hfields i (hidx i hi)
    unfold ThresholdSecretKey.Decrypt ThresholdSecretKey.delta
      ThresholdSecretKey.GetNSquare
    rw [hNi, hTi, hIdi, hShi]
  obtain ⟨hNj, hTj, hThj, -, -⟩ := hfields j hj
  rw [hshares]
  exact combine_core ((keys.getD j default).toThresholdPublicKey)
    p p1 q q1 mInv t l coeffs m₀ r c idxs hp hq hne hpp1 hqq1 hpl hql htl hlt2
    hNj hTj hThj hmInv hm₀ hr hceq hidx hnodup hlen

/-- Witness key set: dealer run on the safe-prime pair `5 = 2·2+1`,
`7 = 2·3+1` with `l = t = 2`. -/
def c2wKeys : List ThresholdSecretKey := (GenerateKeys 2 2 5 2 7 3 2 [1]).getD []

/-- Witness ciphertext: `E(3)` with randomness `2` under `N = 35`. -/
def c2wCipher : ℕ := rawCipher 35 3 2

theorem claimC2_witness :
    ((c2wKeys.getD 0 default).toThresholdPublicKey).CombinePartialDecryptions
      ([0, 1].map fun i => (c2wKeys.getD i default).Decrypt c2wCipher) =
      .ok (some ((3 : ℕ) : ℤ)) :=
  claimC2 2 2 5 2 7 3 2 2 3 c2wCipher 0 [1] c2wKeys [0, 1]
    (by norm_num) (by norm_num) (by norm_num) (by norm_num) (by decide)
    (by norm_num) (by norm_num) (by norm_num) (by norm_num)
    (by rfl) (by norm_num) (by decide) (by rfl) (by norm_num)
    (by decide) (by decide) (by decide)

/-- Counterexample key set: `l = 263` decryption servers with the
smallest 9-bit safe primes `263 = 2·131+1` and `347 = 2·173+1`, so that
`p = 263 ≤ l` and `4Δ²` shares the factor `263` with `N`. -/
def c2GenOutput : Option (List ThresholdSecretKey) :=
  GenerateKeys 263 132 263 131 347 173 2 (List.replicate 131 0)

def c2Keys : List ThresholdSecretKey := c2GenOutput.getD []

def c2PubKey : ThresholdPublicKey := (c2Keys.getD 0 default).toThresholdPublicKey

/-- Counterexample ciphertext: `E(100)` with randomness `3` under
`N = 263·347 = 91261`. -/
def c2Cipher : ℕ := rawCipher 91261 100 3

/-- Honest partial decryptions from the first `t = 132` servers. -/
def c2Shares : List PartialDecryption :=
  (List.range 132).map fun i => (c2Keys.getD i default).Decrypt c2Cipher

set_option maxRecDepth 100000 in
theorem claimC2_counterexample :
    Nat.Prime 263 ∧ Nat.Prime 131 ∧ Nat.Prime 347 ∧ Nat.Prime 173 ∧
    263 = 2 * 131 + 1 ∧ 347 = 2 * 173 + 1 ∧
    arePsAndQsGood 263 131 347 173 = true ∧
    132 ≤ 263 ∧ 263 < 2 * 132 ∧
    c2GenOutput = some c2Keys ∧
    PublicKey.EncryptWithR ⟨91261, 91262⟩ ((100 : ℕ) : ℤ) 3 = some c2Cipher ∧
    (100 : ℕ) < 91261 ∧ Nat.Coprime 3 91261 ∧
    c2Shares.length = 132 ∧ (c2Shares.map (·.Id)).Nodup ∧
    c2PubKey.CombinePartialDecryptions c2Shares = .ok none := by
  refine ⟨by norm_num, by norm_num, by norm_num, by norm_num, by norm_num, by norm_num,
    by decide, by norm_num, by norm_num, rfl, rfl, by norm_num, by decide,
    rfl, by decide, ?_⟩
  have hgen : GenerateKeys 263 132 263 131 347 173 2 (List.replicate 131 0) =
      some c2Keys := rfl
  obtain ⟨mInv, hmInv, hklen, hfields⟩ :=
    generateKeys_fields _ _ _ _ _ _ _ _ _ hgen
  have hN0 : c2PubKey.N = 263 * 347 := (hfields 0 (by norm_num)).1
  have hTot0 : c2PubKey.TotalNumberOfDecryptionServers = 263 :=
    (hfields 0 (by norm_num)).2.1
  have hnseq : c2PubKey.GetNSquare = 263 * 347 * (263 * 347) := by
    unfold ThresholdPublicKey.GetNSquare
    rw [hN0]
  refine combine_panic_core c2PubKey (263 * 347 * (263 * 347)) hnseq (by norm_num)
    c2Cipher (by decide) c2Shares
    (fun sh => computeShare ((mInv * (131 * 173)) :: List.replicate 131 0)
      (263 * 347 * (131 * 173)) 132 ((sh.Id - 1).toNat) * (2 * Factorial 263))
    ?_ (by decide) ?_
  · intro sh hs
    obtain ⟨i, hi, rfl⟩ := List.mem_map.mp hs
    have hi132 : i < 132 := List.mem_range.mp hi
    obtain ⟨hNi, hTi, hThi, hIdi, hShi⟩ := hfields i (by omega)
    unfold ThresholdSecretKey.Decrypt ThresholdSecretKey.delta
      ThresholdSecretKey.GetNSquare
    rw [hNi, hTi, hIdi, hShi]
    have hid : ((((i + 1 : ℕ) : ℤ) - 1).toNat) = i := by
      have h1 : (((i + 1 : ℕ) : ℤ) - 1) = ((i : ℕ) : ℤ) := by push_cast; ring
      rw [h1, Int.toNat_natCast]
    show ((powMod c2Cipher (computeShare ((mInv * (131 * 173)) :: List.replicate 131 0)
        (263 * 347 * (131 * 173)) 132 i * (2 * Factorial 263))
        (263 * 347 * (263 * 347)) : ℕ) : ℤ) =
      ((powMod c2Cipher (computeShare ((mInv * (131 * 173)) :: List.replicate 131 0)
        (263 * 347 * (131 * 173)) 132 ((((i + 1 : ℕ) : ℤ) - 1).toNat) *
          (2 * Factorial 263)) (263 * 347 * (263 * 347)) : ℕ) : ℤ)
    rw [hid]
  · have hdel : c2PubKey.delta = Factorial 263 := by
      unfold ThresholdPublicKey.delta
      rw [hTot0]
    rw [hdel, hN0]
    have hdvd : (263 : ℕ) ∣ Nat.gcd (4 * (Factorial 263 * Factorial 263)) (263 * 347) := by
      refine Nat.dvd_gcd ?_ ?_
      · have hF : (263 : ℕ) ∣ Factorial 263 := by
          rw [Factorial_eq]
          exact Nat.dvd_factorial (by norm_num) (le_refl 263)
        exact Dvd.dvd.mul_left (hF.mul_right (Factorial 263)) 4
      · exact Dvd.dvd.mul_right (dvd_refl 263) 347
    intro h1
    rw [h1] at hdvd
    have := Nat.le_of_dvd one_pos hdvd
    omega
